import Mathlib

/-!
Verification of the ESBP_SEL symmetry-aware CDCL SAT solver
(`src/minisat/simp/Main.cc`, which contains the driver `main`, the whole
`Solver` implementation, and a makefile fragment).

The development shallowly embeds the solver's data model and the operations
referenced by the claims: literals packed as `2*var + sign`, the ternary
assignment value, `cancelUntil`, `reduceDB`, `addClause_`, `addSelClause`,
`learntSymmetryClause` plus the ESBP hook of `propagate`, the watch-list scan
of `propagate`, the compatible-generator-set computation at the end of
`analyze`, the first-UIP resolution loop of `analyze`, and the state
transitions that touch `forbid_units`.

Floating-point activity bookkeeping (`varBumpActivity`, `claBumpActivity`,
decay factors) is omitted throughout: no claim mentions activities, and the
bumps do not affect any value the claims talk about.
-/

namespace ESBP

/-!
Variables (`Var`) are 0-based naturals; a literal (`Lit`) packs
(variable, sign) as `2*var + sign`, sign 1 being negative.  Both are
represented as plain `Nat` here.
-/

/-- `mkLit` from the source: `2*var + (int)sign`. -/
def mkLit (v : Nat) (s : Bool) : Nat := 2 * v + (if s then 1 else 0)

/-- `var(l)`: the variable of a literal (`l >> 1`). -/
def litVar (l : Nat) : Nat := l / 2

/-- `sign(l)`: the sign bit of a literal (`l & 1`). -/
def litSign (l : Nat) : Bool := l % 2 = 1

/-- `~l`: complement of a literal is a flip of the low bit (`l ^ 1`),
written arithmetically. -/
def negLit (l : Nat) : Nat := if l % 2 = 0 then l + 1 else l - 1

/-- The ternary assignment value `lbool`: `l_True`, `l_False`, `l_Undef`. -/
inductive LBool where
  | ltrue
  | lfalse
  | lundef
deriving DecidableEq

/-- Complement on ternary values (`lbool ^ true`). -/
def LBool.flip : LBool → LBool
  | .ltrue => .lfalse
  | .lfalse => .ltrue
  | LBool.lundef => LBool.lundef

/-- `value(p) = assigns[var(p)] ^ sign(p)`: the value of a literal under an
assignment of variables. -/
def litValue (assigns : Nat → LBool) (l : Nat) : LBool :=
  if litSign l then (assigns (litVar l)).flip else assigns (litVar l)

theorem litVar_negLit (l : Nat) : litVar (negLit l) = litVar l := by
  unfold litVar negLit
  split <;> omega

theorem litSign_negLit (l : Nat) : litSign (negLit l) = !litSign l := by
  unfold litSign negLit
  split
  · rename_i h
    have h2 : (l + 1) % 2 = 1 := by omega
    simp [h, h2]
  · rename_i h
    have h2 : (l - 1) % 2 = 0 := by omega
    have h3 : l % 2 = 1 := by omega
    simp [h2, h3]

theorem litValue_negLit (assigns : Nat → LBool) (l : Nat) :
    litValue assigns (negLit l) = (litValue assigns l).flip := by
  unfold litValue
  rw [litVar_negLit, litSign_negLit]
  cases h : litSign l <;> cases assigns (litVar l) <;> rfl

/-!
## `reduceDB` (claim C10)

`Solver::reduceDB` opens with an unconditional `return;`, so the learnt-clause
culling code below it is dead.  The state carries the pieces of solver state
the dead code would have touched (the `learnts` vector, the arena, the watch
lists, the counters); the function is the identity because the source returns
before its first statement takes effect.
-/

/-- The solver-state components `reduceDB` could have affected. -/
structure RDBState where
  learnts : List Nat
  clauses : List Nat
  arena : Nat → List Nat
  arenaWasted : Nat
  watches : Nat → List (Nat × Nat)
  numLearnts : Nat
  learntsLiterals : Nat

/-- `Solver::reduceDB`: its body is `return;` followed by dead code, so the
solver state is returned untouched. -/
def reduceDB (s : RDBState) : RDBState := s

/-!
## `cancelUntil` (claim C7)

State and code of `Solver::cancelUntil` (source lines 492-525), together with
the pieces of `insertVarOrder` it calls.  The external call
`symmetry->updateCancel(trail[c])` only mutates oracle state, which lives
outside the solver; it is therefore not part of the state here.
-/

/-- The solver-state components read or written by `cancelUntil`. -/
structure CUState where
  trail : List Nat
  trailLim : List Nat
  assigns : Nat → LBool
  polarity : Nat → Bool
  decisionVar : Nat → Bool
  orderHeap : List Nat
  vardataLevel : Nat → Nat
  phaseSaving : Nat
  qhead : Nat
  qheadGen : Nat
  qheadSel : Nat
  watchidx : Nat
  selClauses : List Nat
  selIdx : List Nat
  selGen : List Nat
  selProp : List Nat
  selClauseWatches : Nat → List Nat

/-- `decisionLevel()` is the size of `trail_lim`. -/
def CUState.decisionLevel (s : CUState) : Nat := s.trailLim.length

/-- `insertVarOrder(x)`: insert `x` into the order heap when it is a decision
variable not already present (heap order is irrelevant to the claims). -/
def insertVarOrder (s : CUState) (x : Nat) : CUState :=
  if x ∈ s.orderHeap ∨ ¬ s.decisionVar x then s
  else { s with orderHeap := x :: s.orderHeap }

/-- One iteration of the undo loop of `cancelUntil`, at trail position `c`:
clear the assignment, save the phase per `phase_saving`, re-insert the
variable in the order heap. -/
def cancelStep (limLast : Nat) (s : CUState) (c : Nat) : CUState :=
  let l := s.trail.getD c 0
  let x := litVar l
  let s1 := { s with assigns := Function.update s.assigns x LBool.lundef }
  let s2 :=
    if s1.phaseSaving > 1 ∨ (s1.phaseSaving = 1 ∧ c > limLast) then
      { s1 with polarity := Function.update s1.polarity x (litSign l) }
    else s1
  insertVarOrder s2 x

/-- The undo loop of `cancelUntil`, over the (descending) list of trail
positions from `trail.size()-1` down to `trail_lim[lvl]`. -/
def cancelLoop (limLast : Nat) (s : CUState) : List Nat → CUState
  | [] => s
  | c :: cs => cancelLoop limLast (cancelStep limLast s c) cs

/-- The tail-trimming loop of `cancelUntil` for the selector-clause store at a
non-zero target level: pop `selProp` while its last entry is above `lvl`. -/
def dropSelPropAbove (levelOf : Nat → Nat) (lvl : Nat) (xs : List Nat) : List Nat :=
  ((xs.reverse.dropWhile fun v => lvl < levelOf v)).reverse

/-- `Solver::cancelUntil(lvl)` (source lines 492-525). -/
def cancelUntil (s : CUState) (lvl : Nat) : CUState :=
  if s.decisionLevel > lvl then
    let k := s.trailLim.getD lvl 0
    let limLast := s.trailLim.getLastD 0
    let s1 := cancelLoop limLast s ((List.range' k (s.trail.length - k)).reverse)
    let s2 := { s1 with
      qhead := k, qheadGen := k, qheadSel := k, watchidx := 0,
      trail := s1.trail.take k, trailLim := s1.trailLim.take lvl }
    if lvl = 0 then
      { s2 with
        selClauseWatches := fun _ => [],
        selClauses := [], selIdx := [0], selGen := [], selProp := [] }
    else
      let sp := dropSelPropAbove s2.vardataLevel lvl s2.selProp
      let si := s2.selIdx.take (sp.length + 1)
      { s2 with
        selProp := sp,
        selGen := s2.selGen.take sp.length,
        selIdx := si,
        selClauses := s2.selClauses.take (si.getLastD 0) }
  else s

theorem cancelStep_eq (L : Nat) (s : CUState) (c : Nat) :
    ∃ a p o, cancelStep L s c =
      { s with assigns := a, polarity := p, orderHeap := o } := by
  unfold cancelStep insertVarOrder
  dsimp only
  split <;> split <;> exact ⟨_, _, _, rfl⟩

theorem cancelLoop_eq (L : Nat) (cs : List Nat) (s : CUState) :
    ∃ a p o, cancelLoop L s cs =
      { s with assigns := a, polarity := p, orderHeap := o } := by
  induction cs generalizing s with
  | nil => exact ⟨s.assigns, s.polarity, s.orderHeap, rfl⟩
  | cons c cs ih =>
    obtain ⟨a1, p1, o1, h1⟩ := cancelStep_eq L s c
    obtain ⟨a2, p2, o2, h2⟩ := ih (cancelStep L s c)
    rw [cancelLoop, h2, h1]
    exact ⟨a2, p2, o2, rfl⟩

/-- The properties claim C7 asserts of the state after `cancelUntil(lvl)`. -/
def CUPost (s : CUState) (lvl : Nat) : Prop :=
  let t := cancelUntil s lvl
  t.trail.length = s.trailLim.getD lvl 0 ∧
  t.qhead = s.trailLim.getD lvl 0 ∧
  t.qheadSel = s.trailLim.getD lvl 0 ∧
  t.qheadGen = s.trailLim.getD lvl 0 ∧
  t.qhead ≤ t.trail.length ∧
  t.qheadSel ≤ t.trail.length ∧
  t.qheadGen ≤ t.trail.length ∧
  (lvl = 0 →
    t.selClauses = [] ∧ t.selGen = [] ∧ t.selProp = [] ∧
    t.selIdx = [0] ∧ ∀ x, t.selClauseWatches x = [])

/-- C7: for every level `lvl` strictly below the current decision level
(with the boundary `trail_lim[lvl]` inside the trail, as the solver
maintains), after `cancelUntil(lvl)` the trail length equals the old
`trail_lim[lvl]`; `qhead`, `qhead_sel` and `qhead_gen` all equal that
boundary (hence do not exceed the trail length); and when `lvl = 0` the
selector-clause store is completely empty: `selClauses`, `selGen`,
`selProp` and every `selClauseWatches` list are cleared and `selIdx` is
reduced to the single sentinel `0`. -/
theorem cancelUntil_spec (s : CUState) (lvl : Nat)
    (hlt : lvl < s.decisionLevel)
    (hk : s.trailLim.getD lvl 0 ≤ s.trail.length) :
    CUPost s lvl := by
  unfold CUPost cancelUntil
  obtain ⟨a, p, o, hloop⟩ :=
    cancelLoop_eq (s.trailLim.getLastD 0)
      ((List.range' (s.trailLim.getD lvl 0) (s.trail.length - s.trailLim.getD lvl 0)).reverse) s
  rw [if_pos hlt]
  dsimp only
  rw [hloop]
  have hmin : min (s.trailLim.getD lvl 0) s.trail.length = s.trailLim.getD lvl 0 :=
    Nat.min_eq_left hk
  rcases Nat.eq_zero_or_pos lvl with h0 | hpos
  · subst h0
    rw [if_pos rfl]
    refine ⟨?_, rfl, rfl, rfl, ?_, ?_, ?_, ?_⟩
    · simp only [List.length_take, hmin]
    · simp only [List.length_take, hmin]; exact Nat.le_refl _
    · simp only [List.length_take, hmin]; exact Nat.le_refl _
    · simp only [List.length_take, hmin]; exact Nat.le_refl _
    · exact fun _ => ⟨rfl, rfl, rfl, rfl, fun _ => rfl⟩
  · rw [if_neg (by omega)]
    refine ⟨?_, rfl, rfl, rfl, ?_, ?_, ?_, fun h => absurd h (by omega)⟩
    · simp only [List.length_take, hmin]
    · simp only [List.length_take, hmin]; exact Nat.le_refl _
    · simp only [List.length_take, hmin]; exact Nat.le_refl _
    · simp only [List.length_take, hmin]; exact Nat.le_refl _

/-- A concrete state exercising `cancelUntil`: two decision levels, a
non-trivial selector store. -/
def cuW : CUState where
  trail := [0, 2]
  trailLim := [0, 1]
  assigns := fun _ => LBool.ltrue
  polarity := fun _ => true
  decisionVar := fun _ => true
  orderHeap := []
  vardataLevel := fun _ => 0
  phaseSaving := 2
  qhead := 2
  qheadGen := 2
  qheadSel := 2
  watchidx := 0
  selClauses := [5, 7]
  selIdx := [0, 2]
  selGen := [3]
  selProp := [1]
  selClauseWatches := fun _ => [0]

/-- Witness for C7: the hypotheses of `cancelUntil_spec` hold at the concrete
state `cuW` with target level 0, and the conclusion follows. -/
theorem cancelUntil_spec_witness :
    (0 < cuW.decisionLevel ∧ cuW.trailLim.getD 0 0 ≤ cuW.trail.length) ∧
      CUPost cuW 0 :=
  ⟨⟨by decide, by decide⟩, cancelUntil_spec cuW 0 (by decide) (by decide)⟩

/-!
## Claim C10: theorem
-/

/-- C10: `reduceDB` leaves the entire solver state unchanged (its body starts
with `return;`): the learnts vector, the clause arena, the watch lists and
all counters are exactly as before, and no learnt clause is culled. -/
theorem reduceDB_noop (s : RDBState) :
    reduceDB s = s ∧ (reduceDB s).learnts = s.learnts ∧
      (reduceDB s).numLearnts = s.numLearnts :=
  ⟨rfl, rfl, rfl⟩

/-!
## `addClause_` and the sticky `ok` flag (claim C9)

`Solver::addClause_` (source lines 415-442) runs at decision level 0: it
sorts the clause, drops level-0-false and duplicate literals, returns `true`
early when the clause is satisfied or a tautology, records `ok = false` on an
empty result, enqueues and propagates a unit result, and otherwise allocates
and attaches the clause.  `Solver::solve_` (line 1440) starts with
`if (!ok) return l_False;`.

The call `propagate()` inside the unit branch is passed in as a function
`prop` on the state returning the pair (conflict found?, state after
propagation); `addClause_` uses its result only through
`propagate() == CRef_Undef`, and it assigns `ok` itself afterwards.
Likewise the whole remainder of `solve_` after the `ok` test is passed to
`solveStart` as a function `rest`.
-/

/-- Solver state touched by `addClause_` and the entry of `solve_`. -/
structure ACState where
  ok : Bool
  assigns : Nat → LBool
  reasonOf : Nat → Option Nat
  levelOf : Nat → Nat
  trail : List Nat
  clauses : List (List Nat)
  watches : Nat → List (Nat × Nat)
  model : List LBool
  conflict : List Nat

/-- MiniSat's `sort(ps)`: ascending order of the integer literal encoding
(on naturals any correct sort yields this unique list). -/
def sortLits (ps : List Nat) : List Nat := List.insertionSort (· ≤ ·) ps

/-- The scan of `addClause_` over the sorted clause: returns `none` when the
clause is satisfied or contains `p, ~p` (the source returns `true` with no
state change), otherwise the clause with level-0-false and duplicate
literals removed.  `p` is the previously kept literal (`lit_Undef` at
start). -/
def clauseFilterLoop (val : Nat → LBool) : List Nat → Option Nat → Option (List Nat)
  | [], _ => some []
  | x :: xs, p =>
    if val x = LBool.ltrue ∨ some x = p.map negLit then none
    else if val x ≠ LBool.lfalse ∧ some x ≠ p then
      (clauseFilterLoop val xs (some x)).map (x :: ·)
    else clauseFilterLoop val xs p

/-- `uncheckedEnqueue(p)` at decision level 0 with reason `CRef_Undef`:
`assigns[var(p)] = lbool(!sign(p))`, `vardata = (CRef_Undef, 0)`, push on
the trail.  The `forbid_units` block of `uncheckedEnqueue` is skipped
because the reason is `CRef_Undef`. -/
def uncheckedEnqueueRoot (s : ACState) (p : Nat) : ACState :=
  { s with
    assigns := Function.update s.assigns (litVar p)
      (if litSign p then LBool.lfalse else LBool.ltrue),
    reasonOf := Function.update s.reasonOf (litVar p) none,
    levelOf := Function.update s.levelOf (litVar p) 0,
    trail := s.trail ++ [p] }

/-- Push a watcher on a literal's watch list. -/
def pushWatch (w : Nat → List (Nat × Nat)) (k : Nat) (e : Nat × Nat) :
    Nat → List (Nat × Nat) :=
  Function.update w k (w k ++ [e])

/-- `ca.alloc(ps, false, false, nullptr); clauses.push(cr); attachClause(cr)`:
append the clause and watch its first two literals through their
complements. -/
def attachNewClause (s : ACState) (ps : List Nat) : ACState :=
  let cr := s.clauses.length
  { s with
    clauses := s.clauses ++ [ps],
    watches := pushWatch
      (pushWatch s.watches (negLit (ps.getD 0 0)) (cr, ps.getD 1 0))
      (negLit (ps.getD 1 0)) (cr, ps.getD 0 0) }

/-- `Solver::addClause_(ps)` (source lines 415-442); `prop` stands for the
`propagate()` call of the unit branch, returning (conflict?, new state). -/
def addClause_ (prop : ACState → Bool × ACState) (s : ACState) (ps : List Nat) :
    Bool × ACState :=
  if s.ok = false then (false, s)
  else
    match clauseFilterLoop (litValue s.assigns) (sortLits ps) none with
    | none => (true, s)
    | some [] => (false, { s with ok := false })
    | some [l] =>
      let s1 := uncheckedEnqueueRoot s l
      let pr := prop s1
      (!pr.1, { pr.2 with ok := !pr.1 })
    | some (a :: b :: rest) => (true, attachNewClause s (a :: b :: rest))

/-- The entry of `Solver::solve_` (lines 1438-1440): clear `model` and
`conflict`, then `if (!ok) return l_False;`; `rest` stands for everything
after that test. -/
def solveStart (rest : ACState → LBool × ACState) (s : ACState) : LBool × ACState :=
  let s0 := { s with model := [], conflict := [] }
  if s0.ok = false then (LBool.lfalse, s0) else rest s0

theorem solveStart_notOk (t : ACState) (h : t.ok = false) :
    ∀ rest, (solveStart rest t).1 = LBool.lfalse ∧
      ∀ rest2, solveStart rest t = solveStart rest2 t := by
  intro rest
  constructor
  · unfold solveStart
    simp [h]
  · intro rest2
    unfold solveStart
    simp [h]

/-- What claim C9 asserts of one `addClause_` call. -/
def C9Concl (prop : ACState → Bool × ACState) (s : ACState) (ps : List Nat) : Prop :=
  let r := addClause_ prop s ps
  let f := clauseFilterLoop (litValue s.assigns) (sortLits ps) none
  (r.1 = false ↔ r.2.ok = false) ∧
  (r.1 = false ↔
    (s.ok = false ∨ f = some [] ∨
      (∃ l, f = some [l] ∧ (prop (uncheckedEnqueueRoot s l)).1 = true))) ∧
  (s.ok = false → r.2 = s) ∧
  (r.2.ok = false → ∀ rest, (solveStart rest r.2).1 = LBool.lfalse ∧
    ∀ rest2, solveStart rest r.2 = solveStart rest2 r.2)

/-- C9: `add_clause` returns false exactly when the formula became trivially
unsatisfiable — the clause is empty after removing level-0-false and
duplicate literals, or its level-0 unit propagation conflicts, or a previous
add already failed — equivalently exactly when `ok` is false after the call;
a failed state is returned unchanged by later adds, and once `ok` is false
every `solve_` call returns `l_False` immediately, independent of the rest
of the search. -/
theorem addClause_ok_spec (prop : ACState → Bool × ACState) (s : ACState)
    (ps : List Nat) : C9Concl prop s ps := by
  unfold C9Concl addClause_
  by_cases hok : s.ok = false
  · rw [if_pos hok]
    exact ⟨by simp [hok], by simp [hok], fun _ => rfl, fun _ => solveStart_notOk s hok⟩
  · have hok' : s.ok = true := by revert hok; cases s.ok <;> simp
    rw [if_neg hok]
    rcases hf : clauseFilterLoop (litValue s.assigns) (sortLits ps) none with _ | ls
    · simp only [hf]
      refine ⟨by simp [hok'], by simp [hok'], fun h => absurd h hok, ?_⟩
      intro h
      rw [hok'] at h
      exact absurd h (by simp)
    · rcases ls with _ | ⟨a, _ | ⟨b, rest⟩⟩
      · simp only [hf]
        refine ⟨by simp, by simp, fun h => absurd h hok, ?_⟩
        intro _
        exact solveStart_notOk _ rfl
      · simp only [hf]
        refine ⟨?_, ?_, fun h => absurd h hok, ?_⟩
        · cases hpr : (prop (uncheckedEnqueueRoot s a)).1 <;> simp [hpr]
        · cases hpr : (prop (uncheckedEnqueueRoot s a)).1 <;> simp [hpr, hok']
        · intro h
          exact solveStart_notOk _ h
      · simp only [hf]
        refine ⟨by simp [hok', attachNewClause], by simp [hok'], fun h => absurd h hok, ?_⟩
        intro h
        rw [show (attachNewClause s (a :: b :: rest)).ok = s.ok from rfl, hok'] at h
        exact absurd h (by simp)

/-!
## `addSelClause` (claim C6)

`Solver::addSelClause(g, l)` (source lines 1880-1911) builds a selector
clause from the reason clause of `var(l)` under generator `g`.  Its caller
(the generator-watch loop of `propagate`, lines 1061-1070) only examines a
generator `g` when the reason is not symmetry-tainted or `g` belongs to its
compatible set, and branches to the real symmetric-clause derivation when
the returned value is `< 2`.

Here `val` is the current assignment value of literals, `img` is
`g->getImage`, `gId` the generator, `cl` the reason clause of `var(l)`.
-/

/-- The selector-clause store. -/
structure SelState where
  selClauses : List Nat
  selIdx : List Nat
  selGen : List Nat
  selProp : List Nat
  selClauseWatches : Nat → List Nat

/-- Push a selector-clause index on a literal's selector watch list. -/
def pushSelWatch (w : Nat → List Nat) (k : Nat) (id : Nat) : Nat → List Nat :=
  Function.update w k (w k ++ [id])

/-- The guard of the generator-watch loop (source lines 1065-1066): a
generator is examined unless the reason clause is symmetry-tainted and the
generator is outside its compatible set. -/
def genExamined (reasonSym : Bool) (compat : Finset Nat) (g : Nat) : Prop :=
  reasonSym = true → g ∈ compat

/-- `Solver::addSelClause(g, l)` (source lines 1880-1911): if some image of a
literal of the reason clause is True, return 2 with no change; otherwise push
the Undef images on `selClauses`; if fewer than 2 were pushed, shrink them
back off and return their number; otherwise watch the first two pushed
literals through their complements and register the clause, returning 3. -/
def addSelClause (val : Nat → LBool) (img : Nat → Nat) (gId : Nat) (l : Nat)
    (cl : List Nat) (s : SelState) : Nat × SelState :=
  if cl.any (fun x => val (img x) = LBool.ltrue) then (2, s)
  else
    let s1 : SelState :=
      { s with selClauses :=
          s.selClauses ++ (cl.map img).filter (fun y => val y = LBool.lundef) }
    let nbAdded := s1.selClauses.length - s.selIdx.getLastD 0
    if nbAdded < 2 then
      (nbAdded, { s1 with
        selClauses := s1.selClauses.take (s1.selClauses.length - nbAdded) })
    else
      let selClauseId := s.selProp.length
      let w0 := s1.selClauses.getD (s.selIdx.getLastD 0) 0
      let w1 := s1.selClauses.getD (s.selIdx.getLastD 0 + 1) 0
      (3, { s1 with
        selClauseWatches :=
          pushSelWatch (pushSelWatch s1.selClauseWatches (negLit w0) selClauseId)
            (negLit w1) selClauseId,
        selIdx := s1.selIdx ++ [s1.selClauses.length],
        selGen := s1.selGen ++ [gId],
        selProp := s1.selProp ++ [litVar l] })

/-- What claim C6 asserts of one `addSelClause` call. -/
def C6Concl (val : Nat → LBool) (img : Nat → Nat) (gId : Nat) (l : Nat)
    (cl : List Nat) (s : SelState) : Prop :=
  let r := addSelClause val img gId l cl s
  let adds := (cl.map img).filter (fun y => val y = LBool.lundef)
  ((∃ x ∈ cl, val (img x) = LBool.ltrue) → r = (2, s)) ∧
  ((¬ ∃ x ∈ cl, val (img x) = LBool.ltrue) →
    (adds.length < 2 → r = (adds.length, s)) ∧
    (2 ≤ adds.length →
      r.1 = 3 ∧
      r.2.selClauses = s.selClauses ++ adds ∧
      r.2.selIdx = s.selIdx ++ [s.selClauses.length + adds.length] ∧
      r.2.selGen = s.selGen ++ [gId] ∧
      r.2.selProp = s.selProp ++ [litVar l] ∧
      s.selProp.length ∈ r.2.selClauseWatches (negLit (adds.getD 0 0)) ∧
      s.selProp.length ∈ r.2.selClauseWatches (negLit (adds.getD 1 0)) ∧
      (∀ k, k ≠ negLit (adds.getD 0 0) → k ≠ negLit (adds.getD 1 0) →
        r.2.selClauseWatches k = s.selClauseWatches k))) ∧
  (r.1 < 2 ↔
    ((¬ ∃ x ∈ cl, val (img x) = LBool.ltrue) ∧ adds.length < 2))

/-- C6: for a generator examined for a literal with reason clause `cl`
(examined means: compatible with `cl` when `cl` is symmetry-tainted): if the
image of some literal of `cl` is currently True, no selector clause is
stored; otherwise exactly the currently-Undef images of literals of `cl` are
collected, and if at least 2 were collected they are stored as a new
selector clause whose first two literals are watched via their complements,
while with fewer than 2 the selector store is returned unchanged and the
result code (`< 2`) makes the caller derive the real symmetric clause
instead.  `hinv` is the store invariant that the last `selIdx` entry is the
size of `selClauses`. -/
theorem mem_pushSelWatch_self (w : Nat → List Nat) (k id : Nat) :
    id ∈ pushSelWatch w k id k := by
  simp [pushSelWatch]

theorem mem_pushSelWatch_of_mem (w : Nat → List Nat) (k k' id id' : Nat)
    (h : id ∈ w k) : id ∈ pushSelWatch w k' id' k := by
  unfold pushSelWatch
  rcases eq_or_ne k' k with rfl | hne
  · simp [Function.update_same]
    exact Or.inl h
  · rw [Function.update_noteq (Ne.symm hne)]
    exact h

theorem pushSelWatch_frame (w : Nat → List Nat) (k id k' : Nat) (h : k' ≠ k) :
    pushSelWatch w k id k' = w k' := by
  unfold pushSelWatch
  rw [Function.update_noteq h]

theorem addSelClause_spec (val : Nat → LBool) (img : Nat → Nat)
    (reasonSym : Bool) (compat : Finset Nat) (gId : Nat) (l : Nat)
    (cl : List Nat) (s : SelState)
    (_hexam : genExamined reasonSym compat gId)
    (hinv : s.selIdx.getLastD 0 = s.selClauses.length) :
    C6Concl val img gId l cl s := by
  obtain ⟨sc, si, sg, sp, sw⟩ := s
  simp only [] at hinv
  unfold C6Concl
  dsimp only
  by_cases hany : ∃ x ∈ cl, val (img x) = LBool.ltrue
  · have hb : (cl.any fun x => decide (val (img x) = LBool.ltrue)) = true := by
      rw [List.any_eq_true]
      obtain ⟨x, hx, hv⟩ := hany
      exact ⟨x, hx, by simp [hv]⟩
    have hr : addSelClause val img gId l cl ⟨sc, si, sg, sp, sw⟩ =
        (2, ⟨sc, si, sg, sp, sw⟩) := by
      unfold addSelClause
      rw [if_pos hb]
    rw [hr]
    exact ⟨fun _ => rfl, fun h => absurd hany h,
      ⟨fun h2 => absurd h2 (by omega), fun h => absurd hany h.1⟩⟩
  · have hb : ¬((cl.any fun x => decide (val (img x) = LBool.ltrue)) = true) := by
      rw [List.any_eq_true]
      intro ⟨x, hx, hv⟩
      exact hany ⟨x, hx, by simpa using hv⟩
    have h1 : (sc ++ (cl.map img).filter (fun y => val y = LBool.lundef)).length -
        si.getLastD 0 =
        ((cl.map img).filter (fun y => val y = LBool.lundef)).length := by
      rw [List.length_append, hinv]
      omega
    have key : addSelClause val img gId l cl ⟨sc, si, sg, sp, sw⟩ =
        (if ((cl.map img).filter (fun y => val y = LBool.lundef)).length < 2 then
          (((cl.map img).filter (fun y => val y = LBool.lundef)).length,
            ⟨sc, si, sg, sp, sw⟩)
        else
          (3, ⟨sc ++ (cl.map img).filter (fun y => val y = LBool.lundef),
            si ++ [(sc ++ (cl.map img).filter (fun y => val y = LBool.lundef)).length],
            sg ++ [gId], sp ++ [litVar l],
            pushSelWatch
              (pushSelWatch sw
                (negLit (((cl.map img).filter (fun y => val y = LBool.lundef)).getD 0 0))
                sp.length)
              (negLit (((cl.map img).filter (fun y => val y = LBool.lundef)).getD 1 0))
              sp.length⟩)) := by
      unfold addSelClause
      rw [if_neg hb]
      dsimp only
      rw [h1, hinv]
      congr 1
      · rw [List.length_append, Nat.add_sub_cancel, List.take_left]
      · rw [List.getD_append_right _ _ _ _ (Nat.le_refl _), Nat.sub_self,
          List.getD_append_right _ _ _ _ (Nat.le_succ_of_le (Nat.le_refl _)),
          Nat.succ_sub (Nat.le_refl _), Nat.sub_self]
    by_cases hlt : ((cl.map img).filter (fun y => val y = LBool.lundef)).length < 2
    · rw [key, if_pos hlt]
      refine ⟨fun hx => absurd hx hany, fun _ => ⟨fun _ => rfl, fun h2 => absurd hlt (by omega)⟩, ?_⟩
      exact ⟨fun h => ⟨hany, h⟩, fun h => h.2⟩
    · rw [key, if_neg hlt]
      refine ⟨fun hx => absurd hx hany, fun _ => ⟨fun h => absurd h hlt, fun _ => ?_⟩, ?_⟩
      · refine ⟨rfl, rfl, by simp, rfl, rfl, ?_, ?_, ?_⟩
        · exact mem_pushSelWatch_of_mem _ _ _ _ _ (mem_pushSelWatch_self _ _ _)
        · exact mem_pushSelWatch_self _ _ _
        · intro k hk0 hk1
          dsimp only
          rw [pushSelWatch_frame _ _ _ _ hk1, pushSelWatch_frame _ _ _ _ hk0]
      · exact ⟨fun h2 => absurd h2 (by omega), fun h => absurd h.2 hlt⟩

/-- An empty selector store (as after a backtrack to level 0). -/
def c6w : SelState where
  selClauses := []
  selIdx := [0]
  selGen := []
  selProp := []
  selClauseWatches := fun _ => []

/-- Witness for C6: the hypotheses of `addSelClause_spec` hold for a
non-symmetry-tainted reason clause `[2, 4]` whose images are all unassigned,
over the empty selector store, and the conclusion follows. -/
theorem addSelClause_spec_witness :
    (genExamined false ∅ 0 ∧ c6w.selIdx.getLastD 0 = c6w.selClauses.length) ∧
      C6Concl (fun _ => LBool.lundef) (fun x => x + 2) 0 1 [2, 4] c6w :=
  ⟨⟨fun h => absurd h Bool.false_ne_true, by decide⟩,
    addSelClause_spec (fun _ => LBool.lundef) (fun x => x + 2) false ∅ 0 1
      [2, 4] c6w (fun h => absurd h Bool.false_ne_true) (by decide)⟩

/-!
## Compatible-generator set of a symmetric learnt (claim C3)

The tail of `Solver::analyze` (source lines 684-741), reached when `outSym`
is true.  `symmetries` is the list of compatible sets of the symmetry-tainted
reason clauses encountered during resolution, in encounter order; `units` is
the set of literals `q` encountered during the walk at level 0 with
`~q ∈ forbid_units`; `outLearnt` is the learnt clause.  Generators are
identified by their index in the solver's `generators` vector; `img g l` is
`g->getImage(l)` and `stab g c` is `g->stabilize(c)`.
-/

/-- The in-place intersection loop over `symmetries` (source lines 687-715):
`comp` starts cleared; an empty `check` clears and breaks; an empty `comp`
takes `check` wholesale; otherwise `comp` is intersected in place with
`check` and the loop breaks as soon as it goes empty. -/
def interLoop (comp : Finset Nat) : List (Finset Nat) → Finset Nat
  | [] => comp
  | check :: rest =>
    if check = ∅ then ∅
    else if comp = ∅ then interLoop check rest
    else
      let c := comp ∩ check
      if c = ∅ then ∅ else interLoop c rest

/-- The `forbid_units` screening (source lines 717-730): collect in
`to_remove` every `g ∈ comp` such that for some encountered unit `l`,
`value(g.image(l)) != value(l)` or `level(var(g.image(l))) != 0`, then erase
them from `comp`. -/
def forbidFilter (assigns : Nat → LBool) (levelOf : Nat → Nat)
    (img : Nat → Nat → Nat) (units : Finset Nat) (comp : Finset Nat) : Finset Nat :=
  comp \ comp.filter (fun g => ∃ l ∈ units,
    ¬(litValue assigns (img g l) = litValue assigns l ∧
      levelOf (litVar (img g l)) = 0))

/-- The stabilizer augmentation (source lines 732-740): every generator not
already in `comp` that stabilizes the learnt clause is inserted. -/
def addStabilizers (stab : Nat → List Nat → Bool) (generators : List Nat)
    (outLearnt : List Nat) (comp : Finset Nat) : Finset Nat :=
  generators.foldl (fun acc g =>
    if g ∈ acc then acc
    else if stab g outLearnt then insert g acc else acc) comp

/-- The complete compatible-set computation of `analyze` (lines 684-741). -/
def computeCompatible (assigns : Nat → LBool) (levelOf : Nat → Nat)
    (img : Nat → Nat → Nat) (stab : Nat → List Nat → Bool)
    (generators : List Nat) (outLearnt : List Nat)
    (symmetries : List (Finset Nat)) (units : Finset Nat) : Finset Nat :=
  addStabilizers stab generators outLearnt
    (forbidFilter assigns levelOf img units (interLoop ∅ symmetries))

/-- A literal is top-level-true when its current value is True at level 0
(the notion used by claim C3). -/
def topLevelTrue (assigns : Nat → LBool) (levelOf : Nat → Nat) (l : Nat) : Prop :=
  litValue assigns l = LBool.ltrue ∧ levelOf (litVar l) = 0

instance (assigns : Nat → LBool) (levelOf : Nat → Nat) (l : Nat) :
    Decidable (topLevelTrue assigns levelOf l) :=
  inferInstanceAs (Decidable (_ ∧ _))

/-- The set described by claim C3, written from its words: the intersection
of the compatible sets of the encountered symmetry-tainted reasons (empty
when none was encountered, empty as soon as one of them is), minus every
generator whose image of some encountered `forbid_units` literal (the
complement `~l` of a collected `l`) is not top-level-true, plus every
generator that setwise-stabilizes the learnt clause. -/
def claimCompatible (assigns : Nat → LBool) (levelOf : Nat → Nat)
    (img : Nat → Nat → Nat) (stab : Nat → List Nat → Bool)
    (generators : List Nat) (outLearnt : List Nat)
    (symmetries : List (Finset Nat)) (units : Finset Nat) : Finset Nat :=
  (claimInter symmetries).filter
      (fun g => ∀ l ∈ units, topLevelTrue assigns levelOf (img g (negLit l)))
    ∪ (generators.filter (fun g => stab g outLearnt)).toFinset
where
  /-- Intersection of a list of sets, seeded with the first. -/
  claimInter : List (Finset Nat) → Finset Nat
    | [] => ∅
    | c :: rest => rest.foldl (fun a b => a ∩ b) c

theorem foldl_inter_empty (L : List (Finset Nat)) :
    L.foldl (fun a b => a ∩ b) ∅ = ∅ := by
  induction L with
  | nil => rfl
  | cons c rest ih => simpa using ih

theorem interLoop_foldl (L : List (Finset Nat)) :
    ∀ comp : Finset Nat, comp ≠ ∅ →
      interLoop comp L = L.foldl (fun a b => a ∩ b) comp := by
  induction L with
  | nil => intro comp _; rfl
  | cons check rest ih =>
    intro comp hne
    rw [interLoop, List.foldl_cons]
    by_cases hc : check = ∅
    · rw [if_pos hc, hc, Finset.inter_empty, foldl_inter_empty]
    · rw [if_neg hc, if_neg hne]
      dsimp only
      by_cases hi : comp ∩ check = ∅
      · rw [if_pos hi, hi, foldl_inter_empty]
      · rw [if_neg hi, ih _ hi]

theorem interLoop_empty_eq_claimInter (L : List (Finset Nat)) :
    interLoop ∅ L = claimCompatible.claimInter L := by
  cases L with
  | nil => rfl
  | cons c rest =>
    rw [interLoop, claimCompatible.claimInter, if_pos rfl]
    by_cases hc : c = ∅
    · rw [if_pos hc, hc, foldl_inter_empty]
    · rw [if_neg hc, interLoop_foldl rest c hc]

theorem addStabilizers_eq (stab : Nat → List Nat → Bool) (outLearnt : List Nat)
    (generators : List Nat) :
    ∀ comp : Finset Nat,
      addStabilizers stab generators outLearnt comp =
        comp ∪ (generators.filter (fun g => stab g outLearnt)).toFinset := by
  induction generators with
  | nil => intro comp; simp [addStabilizers]
  | cons g rest ih =>
    intro comp
    rw [addStabilizers, List.foldl_cons]
    by_cases hg : g ∈ comp
    · rw [if_pos hg]
      rw [show (List.foldl (fun acc g =>
          if g ∈ acc then acc
          else if stab g outLearnt then insert g acc else acc) comp rest) =
        addStabilizers stab rest outLearnt comp from rfl, ih]
      by_cases hs : stab g outLearnt
      · ext x
        simp only [List.filter_cons, hs, List.toFinset_cons, Finset.mem_union,
          List.mem_toFinset, Finset.mem_insert, if_pos]
        constructor
        · rintro (hx | hx)
          · exact Or.inl hx
          · exact Or.inr (Or.inr hx)
        · rintro (hx | hx | hx)
          · exact Or.inl hx
          · exact Or.inl (hx ▸ hg)
          · exact Or.inr hx
      · simp only [List.filter_cons, if_neg hs]
    · rw [if_neg hg]
      by_cases hs : stab g outLearnt
      · rw [if_pos hs]
        rw [show (List.foldl (fun acc g =>
            if g ∈ acc then acc
            else if stab g outLearnt then insert g acc else acc)
            (insert g comp) rest) =
          addStabilizers stab rest outLearnt (insert g comp) from rfl, ih]
        ext x
        simp only [List.filter_cons, hs, List.toFinset_cons, Finset.mem_union,
          Finset.mem_insert, List.mem_toFinset, if_pos]
        tauto
      · rw [if_neg hs]
        rw [show (List.foldl (fun acc g =>
            if g ∈ acc then acc
            else if stab g outLearnt then insert g acc else acc) comp rest) =
          addStabilizers stab rest outLearnt comp from rfl, ih]
        simp only [List.filter_cons, if_neg hs]

theorem LBool.flip_eq_ltrue (x : LBool) :
    x.flip = LBool.ltrue ↔ x = LBool.lfalse := by
  cases x <;> simp [LBool.flip]

/-- C3: when `analyze` reports a symmetry-tainted conflict, the compatible
set it produces equals the intersection of the compatible sets of the
encountered symmetry-tainted reasons (empty as soon as one is empty), minus
every generator whose image of some encountered top-level `forbid_units`
literal is not top-level-true, plus every generator that setwise-stabilizes
the learnt clause.  `himg` is the complement-respecting property of
generators (`image(~l) = ~image(l)`); `hunits` records that each collected
`l` is currently False (its complement sits in `forbid_units`, true at top
level). -/
theorem computeCompatible_spec (assigns : Nat → LBool) (levelOf : Nat → Nat)
    (img : Nat → Nat → Nat) (stab : Nat → List Nat → Bool)
    (generators : List Nat) (outLearnt : List Nat)
    (symmetries : List (Finset Nat)) (units : Finset Nat)
    (himg : ∀ g l, img g (negLit l) = negLit (img g l))
    (hunits : ∀ l ∈ units, litValue assigns l = LBool.lfalse) :
    computeCompatible assigns levelOf img stab generators outLearnt symmetries units =
      claimCompatible assigns levelOf img stab generators outLearnt symmetries units := by
  unfold computeCompatible claimCompatible
  rw [addStabilizers_eq]
  rw [interLoop_empty_eq_claimInter]
  congr 1
  unfold forbidFilter
  ext g
  simp only [Finset.mem_sdiff, Finset.mem_filter, not_and, not_exists]
  constructor
  · rintro ⟨hmem, hno⟩
    refine ⟨hmem, ?_⟩
    intro l hl
    have h2 := hno hmem l hl
    push_neg at h2
    unfold topLevelTrue
    rw [himg, litValue_negLit, litVar_negLit, LBool.flip_eq_ltrue]
    rw [hunits l hl] at h2
    exact h2
  · rintro ⟨hmem, hall⟩
    refine ⟨hmem, ?_⟩
    intro _ l hl
    push_neg
    have h2 := hall l hl
    unfold topLevelTrue at h2
    rw [himg, litValue_negLit, litVar_negLit, LBool.flip_eq_ltrue] at h2
    rw [hunits l hl]
    exact h2

/-- A concrete assignment for the C3 witness: variable 0 is True, the rest
Undef (so literal 1, i.e. `~x0`, is False as a collected unit must be). -/
def c3assigns : Nat → LBool := fun v => if v = 0 then LBool.ltrue else LBool.lundef

/-- Witness for C3: the hypotheses of `computeCompatible_spec` hold for the
identity generator images with collected unit literal 1 under `c3assigns`,
and the conclusion follows. -/
theorem computeCompatible_spec_witness :
    ((∀ g l, (fun (_ : Nat) (l : Nat) => l) g (negLit l) =
        negLit ((fun (_ : Nat) (l : Nat) => l) g l)) ∧
      (∀ l ∈ ({1} : Finset Nat), litValue c3assigns l = LBool.lfalse)) ∧
    computeCompatible c3assigns (fun _ => 0) (fun _ l => l) (fun _ _ => true)
        [0, 1] [2] [{0}, {0, 1}] {1} =
      claimCompatible c3assigns (fun _ => 0) (fun _ l => l) (fun _ _ => true)
        [0, 1] [2] [{0}, {0, 1}] {1} :=
  ⟨⟨fun _ _ => rfl, by decide⟩,
    computeCompatible_spec c3assigns (fun _ => 0) (fun _ l => l) (fun _ _ => true)
      [0, 1] [2] [{0}, {0, 1}] {1} (fun _ _ => rfl) (by decide)⟩

/-!
## ESBP injection (claim C5)

`Solver::learntSymmetryClause` (source lines 1913-1961) and its call site at
the top of the per-literal loop of `propagate` (lines 904-911).  The oracle
interaction `symmetry->hasClauseToInject / clauseToInject` is represented by
an `Option (List Nat)` parameter: `some vsbp` when the oracle offers the
candidate clause `vsbp` for the just-dequeued literal, `none` otherwise.
-/

/-- A clause as allocated in the arena: literals, learnt flag, symmetry flag,
optional compatible generator set. -/
structure SymClause where
  lits : List Nat
  learnt : Bool
  symFlag : Bool
  compat : Option (Finset Nat)

/-- The solver-state components touched by the ESBP hook. -/
structure InjState where
  arena : List SymClause
  learnts : List Nat
  watches : Nat → List (Nat × Nat)
  qhead : Nat
  trail : List Nat

/-- The index-scan of `learntSymmetryClause` (lines 1920-1931): running over
the clause with counter `i`, remember the position (`> 1`) of the
largest-level literal seen so far, seeded with position 0. -/
def esbpScan (levelOf : Nat → Nat) : List Nat → Nat → Nat × Nat → Nat × Nat
  | [], _, acc => acc
  | l :: rest, i, acc =>
    esbpScan levelOf rest (i + 1)
      (if 1 < i ∧ acc.2 < levelOf (litVar l) then (i, levelOf (litVar l)) else acc)

/-- The clause reordering of `learntSymmetryClause`: swap positions 0 and
`max_i` when `max_i ≠ 0`. -/
def esbpReorder (levelOf : Nat → Nat) (vsbp : List Nat) : List Nat :=
  let mi := (esbpScan levelOf vsbp 0 (0, levelOf (litVar (vsbp.getD 0 0)))).1
  if mi ≠ 0 then (vsbp.set 0 (vsbp.getD mi 0)).set mi (vsbp.getD 0 0) else vsbp

/-- `Solver::learntSymmetryClause` (lines 1913-1961): when the oracle offers
a clause, reorder it, allocate it as a learnt symmetry clause whose
compatible set collects every generator that stabilizes it, push it on
`learnts`, attach it, and return its reference. -/
def learntSymmetryClause (levelOf : Nat → Nat) (stab : Nat → List Nat → Bool)
    (generators : List Nat) (oracleClause : Option (List Nat)) (s : InjState) :
    Option Nat × InjState :=
  match oracleClause with
  | none => (none, s)
  | some vsbp =>
    let sbp := esbpReorder levelOf vsbp
    let comp : Finset Nat := (generators.filter (fun g => stab g sbp)).toFinset
    let cr := s.arena.length
    (some cr, { s with
      arena := s.arena ++ [⟨sbp, true, true, some comp⟩],
      learnts := s.learnts ++ [cr],
      watches := pushWatch
        (pushWatch s.watches (negLit (sbp.getD 0 0)) (cr, sbp.getD 1 0))
        (negLit (sbp.getD 1 0)) (cr, sbp.getD 0 0) })

/-- The ESBP hook of `propagate` (lines 904-911): call
`learntSymmetryClause`; if `opt_stop_prop` is set and a clause was returned,
empty the propagation queue and return it as the conflict. -/
def esbpHook (stopProp : Bool) (levelOf : Nat → Nat) (stab : Nat → List Nat → Bool)
    (generators : List Nat) (oracleClause : Option (List Nat)) (s : InjState) :
    Option Nat × InjState :=
  let r := learntSymmetryClause levelOf stab generators oracleClause s
  match r.1 with
  | some cr =>
    if stopProp then (some cr, { r.2 with qhead := r.2.trail.length })
    else (none, r.2)
  | none => (none, r.2)

/-- A clause is falsified under the current assignment when every literal
evaluates to False (the notion claim C5 appeals to). -/
def falsifiedClause (assigns : Nat → LBool) (c : List Nat) : Prop :=
  ∀ l ∈ c, litValue assigns l = LBool.lfalse

instance (assigns : Nat → LBool) (c : List Nat) :
    Decidable (falsifiedClause assigns c) :=
  inferInstanceAs (Decidable (∀ l ∈ c, _))

theorem mem_pushWatch_self (w : Nat → List (Nat × Nat)) (k : Nat) (e : Nat × Nat) :
    e ∈ pushWatch w k e k := by
  simp [pushWatch]

theorem mem_pushWatch_of_mem (w : Nat → List (Nat × Nat)) (k k' : Nat)
    (e e' : Nat × Nat) (h : e ∈ w k) : e ∈ pushWatch w k' e' k := by
  unfold pushWatch
  rcases eq_or_ne k' k with rfl | hne
  · simp [Function.update_same]
    exact Or.inl h
  · rw [Function.update_noteq (Ne.symm hne)]
    exact h

theorem pushWatch_frame (w : Nat → List (Nat × Nat)) (k : Nat) (e : Nat × Nat)
    (k' : Nat) (h : k' ≠ k) : pushWatch w k e k' = w k' := by
  unfold pushWatch
  rw [Function.update_noteq h]

theorem getD_cons_set_perm (t : List Nat) :
    ∀ (j : Nat) (a : Nat), j < t.length →
      List.Perm (t.getD j 0 :: t.set j a) (a :: t) := by
  induction t with
  | nil => intro j a h; exact absurd h (by simp)
  | cons c t' ih =>
    intro j a h
    cases j with
    | zero => exact List.Perm.swap a c t'
    | succ j =>
      have h' : j < t'.length := by simpa using h
      have step1 : List.Perm (t'.getD j 0 :: c :: t'.set j a)
          (c :: t'.getD j 0 :: t'.set j a) := List.Perm.swap c (t'.getD j 0) _
      have step2 : List.Perm (c :: t'.getD j 0 :: t'.set j a) (c :: a :: t') :=
        List.Perm.cons c (ih j a h')
      have step3 : List.Perm (c :: a :: t') (a :: c :: t') := List.Perm.swap a c t'
      exact ((step1.trans step2).trans step3)

theorem esbpScan_fst_lt (levelOf : Nat → Nat) :
    ∀ (L : List Nat) (i : Nat) (acc : Nat × Nat) (n : Nat),
      acc.1 < n → i + L.length ≤ n → (esbpScan levelOf L i acc).1 < n := by
  intro L
  induction L with
  | nil => intro i acc n h _; exact h
  | cons l rest ih =>
    intro i acc n h hn
    rw [esbpScan]
    refine ih (i + 1) _ n ?_ (by simpa [Nat.add_comm, Nat.add_left_comm] using hn)
    split
    · simp only []
      have : i < n := by
        have := hn
        simp [List.length_cons] at this
        omega
      exact this
    · exact h

theorem esbpReorder_perm (levelOf : Nat → Nat) (vsbp : List Nat)
    (h2 : 2 ≤ vsbp.length) : List.Perm (esbpReorder levelOf vsbp) vsbp := by
  unfold esbpReorder
  dsimp only
  split
  · rename_i hmi
    have hlt : (esbpScan levelOf vsbp 0 (0, levelOf (litVar (vsbp.getD 0 0)))).1 <
        vsbp.length :=
      esbpScan_fst_lt levelOf vsbp 0 _ vsbp.length (by omega) (by omega)
    cases vsbp with
    | nil => simp at h2
    | cons a t =>
      rcases hj : (esbpScan levelOf (a :: t) 0 (0, levelOf (litVar ((a :: t).getD 0 0)))).1
        with _ | j
      · exact absurd hj hmi
      · rw [hj] at hlt
        have hjt : j < t.length := by simpa using hlt
        have e1 : ((a :: t).set 0 ((a :: t).getD (j + 1) 0)).set (j + 1)
            ((a :: t).getD 0 0) = t.getD j 0 :: t.set j a := rfl
        rw [e1]
        exact getD_cons_set_perm t j a hjt
  · exact List.Perm.refl _

/-- What remains true of claim C5 (its amended form): the offered clause is
allocated (reordered by `esbpReorder`, a permutation) as a learnt
symmetry-flagged clause whose compatible set is exactly the generators that
stabilize it, pushed on `learnts` and attached; the hook returns it as the
conflict if and only if `opt_stop_prop` is set. -/
def C5Concl (stopProp : Bool) (levelOf : Nat → Nat) (stab : Nat → List Nat → Bool)
    (generators : List Nat) (vsbp : List Nat) (s : InjState) : Prop :=
  let sbp := esbpReorder levelOf vsbp
  let cr := s.arena.length
  let r := learntSymmetryClause levelOf stab generators (some vsbp) s
  let hook := esbpHook stopProp levelOf stab generators (some vsbp) s
  r.1 = some cr ∧
  r.2.arena = s.arena ++
    [⟨sbp, true, true, some ((generators.filter fun g => stab g sbp).toFinset)⟩] ∧
  List.Perm sbp vsbp ∧
  (∀ g, g ∈ ((generators.filter fun g => stab g sbp).toFinset) ↔
    (g ∈ generators ∧ stab g sbp = true)) ∧
  r.2.learnts = s.learnts ++ [cr] ∧
  (cr, sbp.getD 1 0) ∈ r.2.watches (negLit (sbp.getD 0 0)) ∧
  (cr, sbp.getD 0 0) ∈ r.2.watches (negLit (sbp.getD 1 0)) ∧
  (∀ k, k ≠ negLit (sbp.getD 0 0) → k ≠ negLit (sbp.getD 1 0) →
    r.2.watches k = s.watches k) ∧
  (hook.1 ≠ none ↔ stopProp = true) ∧
  hook.2.arena = r.2.arena

/-- C5 (amended): when the oracle offers an ESBP candidate clause (of size at
least 2, as an attachable clause must be), it is allocated as a learnt
symmetry clause whose compatible set is exactly the stabilizing generators
and attached; the hook of `propagate` returns it as the conflict if and only
if the `stop-prop` option is set — falsification is not tested. -/
theorem learntSymmetryClause_spec (stopProp : Bool) (levelOf : Nat → Nat)
    (stab : Nat → List Nat → Bool) (generators : List Nat) (vsbp : List Nat)
    (s : InjState) (h2 : 2 ≤ vsbp.length) :
    C5Concl stopProp levelOf stab generators vsbp s := by
  unfold C5Concl
  refine ⟨rfl, rfl, esbpReorder_perm levelOf vsbp h2, ?_, rfl, ?_, ?_, ?_, ?_, ?_⟩
  · intro g
    simp [List.mem_toFinset, List.mem_filter]
  · exact mem_pushWatch_of_mem _ _ _ _ _ (mem_pushWatch_self _ _ _)
  · exact mem_pushWatch_self _ _ _
  · intro k hk0 hk1
    show pushWatch (pushWatch _ _ _) _ _ k = _
    rw [pushWatch_frame _ _ _ _ hk1, pushWatch_frame _ _ _ _ hk0]
  · unfold esbpHook
    dsimp only
    cases stopProp with
    | false => simp [learntSymmetryClause]
    | true => simp [learntSymmetryClause]
  · unfold esbpHook
    dsimp only
    cases stopProp with
    | false => simp [learntSymmetryClause]
    | true => simp [learntSymmetryClause]

/-- An empty injection state. -/
def injW : InjState where
  arena := []
  learnts := []
  watches := fun _ => []
  qhead := 0
  trail := []

/-- An assignment making variable 0 True (literal 0 is not False). -/
def c5assigns : Nat → LBool := fun v => if v = 0 then LBool.ltrue else LBool.lundef

/-- Counterexample to C5 as stated: with `stop-prop` set, the hook returns
the injected clause `[0, 2]` as the conflict even though that clause is not
falsified under the current assignment (literal 0 is True): the code never
tests falsification. -/
theorem esbpHook_stopProp_counterexample :
    ¬(((esbpHook true (fun _ => 0) (fun _ _ => true) [] (some [0, 2]) injW).1 ≠ none) ↔
      (true = true ∧ falsifiedClause c5assigns [0, 2])) := by
  decide

/-- Witness for C5 (amended): the size hypothesis holds for the clause
`[0, 2]` over the empty state, and the conclusion follows. -/
theorem learntSymmetryClause_spec_witness :
    2 ≤ ([0, 2] : List Nat).length ∧
      C5Concl true (fun _ => 0) (fun _ _ => true) [] [0, 2] injW :=
  ⟨by decide,
    learntSymmetryClause_spec true (fun _ => 0) (fun _ _ => true) [] [0, 2] injW
      (by decide)⟩

/-!
## The watch-list scan of `propagate` (claim C8)

The inner loop of `Solver::propagate` for a just-dequeued literal `p`
(source lines 912-953), with the split-iterator discipline: the read pointer
walks the watcher list, kept watchers accumulate at the write pointer, and
`ws.shrink(i-j)` finally replaces the list by the kept prefix.
`uncheckedEnqueue` is lines 859-879 (including its `forbid_units` block).
-/

/-- The solver-state components read or written by the scan. -/
structure ScanState where
  arena : List SymClause
  watches : Nat → List (Nat × Nat)
  assigns : Nat → LBool
  reasonOf : Nat → Option Nat
  levelOf : Nat → Nat
  trail : List Nat
  trailLimLen : Nat
  qhead : Nat
  forbidUnits : Finset Nat

/-- The placeholder clause for out-of-range arena lookups. -/
def noClause : SymClause := ⟨[], false, false, none⟩

/-- `Solver::uncheckedEnqueue(p, from)` (lines 859-879): record the
assignment, its reason and level, push `p` on the trail; at decision level 0
with a real reason, insert `p` into `forbid_units` when the reason is
symmetry-flagged or contains the complement of a `forbid_units` literal. -/
def uncheckedEnqueue (s : ScanState) (p : Nat) (reasonRef : Option Nat) : ScanState :=
  let s1 := { s with
    assigns := Function.update s.assigns (litVar p)
      (if litSign p then LBool.lfalse else LBool.ltrue),
    reasonOf := Function.update s.reasonOf (litVar p) reasonRef,
    levelOf := Function.update s.levelOf (litVar p) s.trailLimLen,
    trail := s.trail ++ [p] }
  match reasonRef with
  | some cr =>
    if s.trailLimLen = 0 then
      let c := s.arena.getD cr noClause
      if c.symFlag = true ∨ ∃ x ∈ c.lits, negLit x ∈ s.forbidUnits then
        { s1 with forbidUnits := insert p s1.forbidUnits }
      else s1
    else s1
  | none => s1

/-- The `for (int k = 2; ...)` search for a non-False literal: scan the rest
of the clause from position `k`, returning the position found. -/
def findWatchFrom (assigns : Nat → LBool) : List Nat → Nat → Option Nat
  | [], _ => none
  | x :: rest, k =>
    if litValue assigns x ≠ LBool.lfalse then some k
    else findWatchFrom assigns rest (k + 1)

/-- The watcher-list scan of `propagate` for literal `p` over the watcher
list of `p` (lines 912-953).  Returns (kept watchers in order, final state,
conflict).  The false literal `~p` is first normalized to index 1; the five
outcomes follow the source: blocker True — keep; index-0 True — keep with
new blocker; non-False literal at `k ≥ 2` — swap it to index 1 and move the
watch; otherwise unit: conflict (keep, drain the remaining watchers in
order, empty the queue) when index 0 is False, else enqueue index 0 with
this clause as reason. -/
def scanWatchers (p : Nat) : ScanState → List (Nat × Nat) →
    List (Nat × Nat) × ScanState × Option Nat
  | s, [] => ([], s, none)
  | s, (cr, blocker) :: rest =>
    if litValue s.assigns blocker = LBool.ltrue then
      let r := scanWatchers p s rest
      ((cr, blocker) :: r.1, r.2)
    else
      let c0 := s.arena.getD cr noClause
      let cl := if c0.lits.getD 0 0 = negLit p
        then (c0.lits.set 0 (c0.lits.getD 1 0)).set 1 (negLit p)
        else c0.lits
      let s1 := { s with arena := s.arena.set cr { c0 with lits := cl } }
      let first := cl.getD 0 0
      if first ≠ blocker ∧ litValue s1.assigns first = LBool.ltrue then
        let r := scanWatchers p s1 rest
        ((cr, first) :: r.1, r.2)
      else
        match findWatchFrom s1.assigns (cl.drop 2) 2 with
        | some k =>
          let s2 := { s1 with
            arena := s1.arena.set cr
              { c0 with lits := (cl.set 1 (cl.getD k 0)).set k (negLit p) },
            watches := pushWatch s1.watches (negLit (cl.getD k 0)) (cr, first) }
          scanWatchers p s2 rest
        | none =>
          if litValue s1.assigns first = LBool.lfalse then
            ((cr, first) :: rest, { s1 with qhead := s1.trail.length }, some cr)
          else
            let r := scanWatchers p (uncheckedEnqueue s1 first (some cr)) rest
            ((cr, first) :: r.1, r.2)

/-- After the scan, `ws.shrink(i - j)` keeps exactly the accumulated
watchers on `p`'s list. -/
def propagateLitScan (s : ScanState) (p : Nat) : ScanState × Option Nat :=
  let r := scanWatchers p s (s.watches p)
  ({ r.2.1 with watches := Function.update r.2.1.watches p r.1 }, r.2.2)

theorem litValue_enqueue (a : Nat → LBool) (p : Nat) :
    litValue (Function.update a (litVar p)
      (if litSign p then LBool.lfalse else LBool.ltrue)) p = LBool.ltrue := by
  unfold litValue
  rw [Function.update_same]
  cases h : litSign p <;> simp [h, LBool.flip]

theorem findWatchFrom_sound (assigns : Nat → LBool) :
    ∀ (L : List Nat) (k0 k : Nat), findWatchFrom assigns L k0 = some k →
      k0 ≤ k ∧ k - k0 < L.length ∧
        litValue assigns (L.getD (k - k0) 0) ≠ LBool.lfalse := by
  intro L
  induction L with
  | nil => intro k0 k h; exact absurd h (by simp [findWatchFrom])
  | cons x rest ih =>
    intro k0 k h
    rw [findWatchFrom] at h
    split at h
    · rename_i hx
      have hk : k0 = k := Option.some.inj h
      subst hk
      refine ⟨Nat.le_refl _, by simp, ?_⟩
      simpa using hx
    · rename_i hx
      obtain ⟨h1, h2, h3⟩ := ih (k0 + 1) k h
      refine ⟨by omega, by simp only [List.length_cons]; omega, ?_⟩
      have : k - k0 = (k - (k0 + 1)) + 1 := by omega
      rw [this]
      simpa using h3

theorem getD_drop_add (l : List Nat) (n m : Nat) :
    (l.drop n).getD m 0 = l.getD (n + m) 0 := by
  rw [List.getD_eq_getElem?_getD, List.getD_eq_getElem?_getD, List.getElem?_drop]

theorem uncheckedEnqueue_fields (s : ScanState) (p : Nat) (ref : Option Nat) :
    (uncheckedEnqueue s p ref).assigns = Function.update s.assigns (litVar p)
      (if litSign p then LBool.lfalse else LBool.ltrue) ∧
    (uncheckedEnqueue s p ref).reasonOf = Function.update s.reasonOf (litVar p) ref ∧
    (uncheckedEnqueue s p ref).trail = s.trail ++ [p] := by
  unfold uncheckedEnqueue
  cases ref with
  | none => exact ⟨rfl, rfl, rfl⟩
  | some cr =>
    dsimp only
    split
    · split <;> exact ⟨rfl, rfl, rfl⟩
    · exact ⟨rfl, rfl, rfl⟩

/-- What claim C8 asserts of the scan's handling of the head watcher
`(cr, blocker)` of the watch list of the just-dequeued literal `p`. -/
def C8Concl (p : Nat) (s : ScanState) (cr blocker : Nat)
    (rest : List (Nat × Nat)) : Prop :=
  let c0 := s.arena.getD cr noClause
  let cl := if c0.lits.getD 0 0 = negLit p
    then (c0.lits.set 0 (c0.lits.getD 1 0)).set 1 (negLit p)
    else c0.lits
  let s1 : ScanState := { s with arena := s.arena.set cr { c0 with lits := cl } }
  let first := cl.getD 0 0
  let r := scanWatchers p s ((cr, blocker) :: rest)
  (litValue s.assigns blocker = LBool.ltrue →
    r = ((cr, blocker) :: (scanWatchers p s rest).1, (scanWatchers p s rest).2)) ∧
  (litValue s.assigns blocker ≠ LBool.ltrue →
    ((first ≠ blocker ∧ litValue s1.assigns first = LBool.ltrue) →
      r = ((cr, first) :: (scanWatchers p s1 rest).1, (scanWatchers p s1 rest).2)) ∧
    (¬(first ≠ blocker ∧ litValue s1.assigns first = LBool.ltrue) →
      (∀ k, findWatchFrom s1.assigns (cl.drop 2) 2 = some k →
        let s2 : ScanState := { s1 with
          arena := s1.arena.set cr
            { c0 with lits := (cl.set 1 (cl.getD k 0)).set k (negLit p) },
          watches := pushWatch s1.watches (negLit (cl.getD k 0)) (cr, first) }
        r = scanWatchers p s2 rest ∧
        (cr, first) ∈ s2.watches (negLit (cl.getD k 0)) ∧
        2 ≤ k ∧ k < cl.length ∧
        litValue s1.assigns (cl.getD k 0) ≠ LBool.lfalse ∧
        s2.arena = s1.arena.set cr
          { c0 with lits := (cl.set 1 (cl.getD k 0)).set k (negLit p) } ∧
        ((cl.set 1 (cl.getD k 0)).set k (negLit p)).getD 1 0 = cl.getD k 0) ∧
      (findWatchFrom s1.assigns (cl.drop 2) 2 = none →
        (litValue s1.assigns first = LBool.lfalse →
          r = ((cr, first) :: rest,
            ({ s1 with qhead := s1.trail.length }, some cr))) ∧
        (litValue s1.assigns first ≠ LBool.lfalse →
          let s3 := uncheckedEnqueue s1 first (some cr)
          r = ((cr, first) :: (scanWatchers p s3 rest).1,
            (scanWatchers p s3 rest).2) ∧
          litValue s3.assigns first = LBool.ltrue ∧
          s3.reasonOf (litVar first) = some cr ∧
          s3.trail = s1.trail ++ [first]))))

/-- C8: during the watch-list scan for a just-dequeued literal `p` (after
`~p` is normalized to index 1): a watcher whose blocker is True is kept
unchanged; if the clause's index-0 watch is True the watcher is replaced
with one using that literal as blocker; otherwise a non-False literal at
a position `k ≥ 2` is swapped into index 1 and the watch moves to that
literal's list; and with none the clause is unit — if its index-0 literal
is False the clause is returned as the conflict with the remaining watchers
drained in order and the queue emptied, otherwise the index-0 literal is
enqueued with this clause as its reason. -/
theorem scanWatchers_spec (p : Nat) (s : ScanState) (cr blocker : Nat)
    (rest : List (Nat × Nat))
    (hlen : 2 ≤ (s.arena.getD cr noClause).lits.length) :
    C8Concl p s cr blocker rest := by
  unfold C8Concl
  refine ⟨?_, ?_⟩
  · intro hb
    rw [scanWatchers, if_pos hb]
  · intro hb
    refine ⟨?_, ?_⟩
    · intro hft
      rw [scanWatchers, if_neg hb]
      dsimp only
      rw [if_pos hft]
    · intro hnf
      refine ⟨?_, ?_⟩
      · intro k hk
        intro s2
        have hr : scanWatchers p s ((cr, blocker) :: rest) = scanWatchers p s2 rest := by
          rw [scanWatchers, if_neg hb]
          dsimp only
          rw [if_neg hnf, hk]
        obtain ⟨hk2, hkb, hkv⟩ := findWatchFrom_sound _ _ _ _ hk
        have hcllen : 2 ≤ (if (s.arena.getD cr noClause).lits.getD 0 0 = negLit p
            then ((s.arena.getD cr noClause).lits.set 0
              ((s.arena.getD cr noClause).lits.getD 1 0)).set 1 (negLit p)
            else (s.arena.getD cr noClause).lits).length := by
          split <;> simpa using hlen
        have hkcl : k < (if (s.arena.getD cr noClause).lits.getD 0 0 = negLit p
            then ((s.arena.getD cr noClause).lits.set 0
              ((s.arena.getD cr noClause).lits.getD 1 0)).set 1 (negLit p)
            else (s.arena.getD cr noClause).lits).length := by
          have := hkb
          rw [List.length_drop] at this
          omega
        refine ⟨hr, mem_pushWatch_self _ _ _, hk2, hkcl, ?_, rfl, ?_⟩
        · have := hkv
          rw [getD_drop_add] at this
          have he : 2 + (k - 2) = k := by omega
          rw [he] at this
          exact this
        · rw [List.getD_eq_getElem?_getD, List.getElem?_set_ne (by omega),
            List.getElem?_set_self (by simpa [List.length_set] using
              (by omega : 1 < (if (s.arena.getD cr noClause).lits.getD 0 0 = negLit p
                then ((s.arena.getD cr noClause).lits.set 0
                  ((s.arena.getD cr noClause).lits.getD 1 0)).set 1 (negLit p)
                else (s.arena.getD cr noClause).lits).length))]
          rfl
      · intro hnone
        refine ⟨?_, ?_⟩
        · intro hfalse
          rw [scanWatchers, if_neg hb]
          dsimp only
          rw [if_neg hnf, hnone, if_pos hfalse]
        · intro hnfalse
          refine ⟨?_, ?_, ?_, ?_⟩
          · rw [scanWatchers, if_neg hb]
            dsimp only
            rw [if_neg hnf, hnone, if_neg hnfalse]
          · rw [(uncheckedEnqueue_fields _ _ _).1]
            exact litValue_enqueue _ _
          · rw [(uncheckedEnqueue_fields _ _ _).2.1]
            exact Function.update_same _ _ _
          · exact (uncheckedEnqueue_fields _ _ _).2.2

/-- A concrete scan state: variable 0 just assigned True (`p = 0` dequeued),
one attached clause `[~x0, x1]`. -/
def c8w : ScanState where
  arena := [⟨[1, 2], false, false, none⟩]
  watches := fun _ => []
  assigns := c5assigns
  reasonOf := fun _ => none
  levelOf := fun _ => 0
  trail := [0]
  trailLimLen := 0
  qhead := 1
  forbidUnits := ∅

/-- Witness for C8: the size hypothesis of `scanWatchers_spec` holds at the
concrete state `c8w` for the watcher `(0, 5)` of the dequeued literal 0, and
the conclusion follows. -/
theorem scanWatchers_spec_witness :
    2 ≤ (c8w.arena.getD 0 noClause).lits.length ∧ C8Concl 0 c8w 0 5 [] :=
  ⟨by decide, scanWatchers_spec 0 c8w 0 5 [] (by decide)⟩

/-!
## `forbid_units` across the solver's run (claim C2)

The transition system below covers every site that writes `forbid_units` or
the assignment:

- `uncheckedEnqueue` with a real reason (lines 859-879): at decision level 0
  insert the enqueued literal when the reason clause is symmetry-flagged or
  contains the complement of a `forbid_units` literal (`fuEnqueue`);
- `uncheckedEnqueue` with `CRef_Undef`: decisions, `addClause_` units,
  generator images enqueued by `search` (`fuEnqueueFree`);
- the initial UNITS injection of `solve_` (lines 1470-1480): insert the
  oracle unit unconditionally, then enqueue it only when it is still
  unassigned (`fuUnitsInject`) — `solve_` runs at decision level 0;
- the unit-learnt branch of `search` (lines 1284-1302), reached after
  `cancelUntil(0)` because `analyze` sets the backtrack level of a unit
  learnt clause to 0: enqueue the asserting literal, and insert it when the
  conflict was symmetry-tainted (`fuLearntUnit`);
- `newDecisionLevel` and `cancelUntil` (which unassigns exactly the
  variables above the target level).

Two ghost fields instrument the state: `symSources` collects the literals
whose assignment was produced by a symmetry-dependent derivation (in the
claim's sense: symmetry-flagged reason, reason containing the complement of
a `forbid_units` literal, or symmetry-derived unit), and
`preAssignedInjected` collects the literals recorded by the UNITS phase
while already assigned.
-/

/-- The solver-state components relevant to the `forbid_units` invariant,
plus the two ghost fields. -/
structure FUState where
  assigns : Nat → LBool
  levelOf : Nat → Nat
  dl : Nat
  trail : List Nat
  forbidUnits : Finset Nat
  symSources : Finset Nat
  preAssignedInjected : Finset Nat

/-- The initial solver state. -/
def fuInit : FUState where
  assigns := fun _ => LBool.lundef
  levelOf := fun _ => 0
  dl := 0
  trail := []
  forbidUnits := ∅
  symSources := ∅
  preAssignedInjected := ∅

/-- `uncheckedEnqueue(p, from)` with a real reason clause of literals
`reasonLits` and symmetry flag `reasonSym` (lines 859-879). -/
def fuEnqueue (s : FUState) (p : Nat) (reasonLits : List Nat)
    (reasonSym : Bool) : FUState :=
  let s1 := { s with
    assigns := Function.update s.assigns (litVar p)
      (if litSign p then LBool.lfalse else LBool.ltrue),
    levelOf := Function.update s.levelOf (litVar p) s.dl,
    trail := s.trail ++ [p] }
  if s.dl = 0 then
    if reasonSym = true ∨ ∃ x ∈ reasonLits, negLit x ∈ s.forbidUnits then
      { s1 with forbidUnits := insert p s1.forbidUnits,
                symSources := insert p s1.symSources }
    else s1
  else s1

/-- `uncheckedEnqueue(p, CRef_Undef)`: a decision, an `addClause_` unit or a
generator image — the `forbid_units` block is skipped. -/
def fuEnqueueFree (s : FUState) (p : Nat) : FUState :=
  { s with
    assigns := Function.update s.assigns (litVar p)
      (if litSign p then LBool.lfalse else LBool.ltrue),
    levelOf := Function.update s.levelOf (litVar p) s.dl,
    trail := s.trail ++ [p] }

/-- `newDecisionLevel()`. -/
def fuNewLevel (s : FUState) : FUState := { s with dl := s.dl + 1 }

/-- One oracle unit of the UNITS phase of `solve_` (lines 1475-1479):
`forbid_units.insert(l); if (value(l) == l_Undef) uncheckedEnqueue(l);`. -/
def fuUnitsInject (s : FUState) (l : Nat) : FUState :=
  let s1 := { s with forbidUnits := insert l s.forbidUnits }
  if litValue s.assigns l = LBool.lundef then
    { (fuEnqueueFree s1 l) with symSources := insert l s1.symSources }
  else
    { s1 with preAssignedInjected := insert l s1.preAssignedInjected }

/-- The unit-learnt branch of `search` (lines 1284-1302), after the
backtrack to level 0: enqueue the asserting literal; when the conflict was
symmetry-tainted add it to `forbid_units`. -/
def fuLearntUnit (s : FUState) (l : Nat) (isSym : Bool) : FUState :=
  let s1 := fuEnqueueFree s l
  if isSym = true then
    { s1 with forbidUnits := insert l s1.forbidUnits,
              symSources := insert l s1.symSources }
  else s1

/-- `cancelUntil(lvl)` on this state: unassign exactly the variables above
`lvl` and drop their trail entries. -/
def fuCancel (s : FUState) (lvl : Nat) : FUState :=
  { s with
    dl := lvl,
    assigns := fun v => if lvl < s.levelOf v then LBool.lundef else s.assigns v,
    trail := s.trail.filter (fun p => s.levelOf (litVar p) ≤ lvl) }

/-- The reachable solver states, as far as `forbid_units` is concerned.
`uncheckedEnqueue` asserts `value(p) == l_Undef`; the UNITS phase and the
unit-learnt branch run at decision level 0. -/
inductive FUReach : FUState → Prop where
  | init : FUReach fuInit
  | enqueue (s : FUState) (p : Nat) (lits : List Nat) (sym : Bool) :
      FUReach s → litValue s.assigns p = LBool.lundef →
      FUReach (fuEnqueue s p lits sym)
  | enqueueFree (s : FUState) (p : Nat) :
      FUReach s → litValue s.assigns p = LBool.lundef →
      FUReach (fuEnqueueFree s p)
  | newLevel (s : FUState) : FUReach s → FUReach (fuNewLevel s)
  | unitsInject (s : FUState) (l : Nat) :
      FUReach s → s.dl = 0 → FUReach (fuUnitsInject s l)
  | learntUnit (s : FUState) (l : Nat) (isSym : Bool) :
      FUReach s → s.dl = 0 → litValue s.assigns l = LBool.lundef →
      FUReach (fuLearntUnit s l isSym)
  | cancel (s : FUState) (lvl : Nat) : FUReach s → FUReach (fuCancel s lvl)

/-- The amended C2 invariant: every `forbid_units` literal either was
already assigned when the UNITS phase recorded it, or is assigned True at
decision level 0 by a symmetry-dependent derivation. -/
def C2Inv (s : FUState) : Prop :=
  ∀ l ∈ s.forbidUnits,
    l ∈ s.preAssignedInjected ∨
      (litValue s.assigns l = LBool.ltrue ∧ s.levelOf (litVar l) = 0 ∧
        l ∈ s.symSources)

theorem litVar_ne_of_values (a : Nat → LBool) (l p : Nat)
    (hl : litValue a l = LBool.ltrue) (hp : litValue a p = LBool.lundef) :
    litVar l ≠ litVar p := by
  intro he
  unfold litValue at hl hp
  rw [he] at hl
  rcases h : a (litVar p) with _ | _ | _ <;> rw [h] at hl hp <;>
    revert hl hp <;> cases litSign l <;> cases litSign p <;>
    simp [LBool.flip]

theorem litValue_update_ne (a : Nat → LBool) (l : Nat) (v : Nat) (x : LBool)
    (h : litVar l ≠ v) :
    litValue (Function.update a v x) l = litValue a l := by
  unfold litValue
  rw [Function.update_noteq h]

theorem litValue_cancel (a : Nat → LBool) (lv : Nat → Nat) (lvl : Nat) (m : Nat)
    (h0 : lv (litVar m) = 0) :
    litValue (fun v => if lvl < lv v then LBool.lundef else a v) m =
      litValue a m := by
  unfold litValue
  have hb : (fun v => if lvl < lv v then LBool.lundef else a v) (litVar m) =
      a (litVar m) := by
    simp [h0]
  rw [hb]

theorem fuEnqueue_fields (s : FUState) (p : Nat) (lits : List Nat) (sym : Bool) :
    (fuEnqueue s p lits sym).assigns = Function.update s.assigns (litVar p)
      (if litSign p then LBool.lfalse else LBool.ltrue) ∧
    (fuEnqueue s p lits sym).levelOf = Function.update s.levelOf (litVar p) s.dl ∧
    (fuEnqueue s p lits sym).preAssignedInjected = s.preAssignedInjected ∧
    s.symSources ⊆ (fuEnqueue s p lits sym).symSources ∧
    ((fuEnqueue s p lits sym).forbidUnits = s.forbidUnits ∨
      ((fuEnqueue s p lits sym).forbidUnits = insert p s.forbidUnits ∧
        s.dl = 0 ∧ p ∈ (fuEnqueue s p lits sym).symSources)) := by
  unfold fuEnqueue
  dsimp only
  split
  · rename_i hdl
    split
    · exact ⟨rfl, rfl, rfl, Finset.subset_insert _ _,
        Or.inr ⟨rfl, hdl, Finset.mem_insert_self _ _⟩⟩
    · exact ⟨rfl, rfl, rfl, Finset.Subset.refl _, Or.inl rfl⟩
  · exact ⟨rfl, rfl, rfl, Finset.Subset.refl _, Or.inl rfl⟩

/-- C2 (amended): in every reachable solver state, every literal of
`forbid_units` either was already assigned at the moment the initial
units-injection phase of `solve_` recorded it, or is assigned True at
decision level 0 by a symmetry-dependent derivation (symmetry-flagged
reason, reason containing the complement of a `forbid_units` literal,
injected symmetry unit, or symmetric unit learnt). -/
theorem forbidUnits_inv (s : FUState) (h : FUReach s) : C2Inv s := by
  induction h with
  | init =>
    intro l hl
    exact absurd hl (by simp [fuInit])
  | enqueue s p lits sym hr hund ih =>
    obtain ⟨ha, hlv, hpre, hss, hfb⟩ := fuEnqueue_fields s p lits sym
    intro l hl
    rcases hfb with hsame | ⟨hins, hdl, hpmem⟩
    · rw [hsame] at hl
      rcases ih l hl with h1 | ⟨hv, h0, hsrc⟩
      · left
        rw [hpre]
        exact h1
      · right
        have hne := litVar_ne_of_values s.assigns l p hv hund
        refine ⟨?_, ?_, hss hsrc⟩
        · rw [ha, litValue_update_ne _ _ _ _ hne]
          exact hv
        · rw [hlv, Function.update_noteq hne]
          exact h0
    · rw [hins] at hl
      rcases Finset.mem_insert.mp hl with rfl | hold
      · right
        refine ⟨?_, ?_, hpmem⟩
        · rw [ha]
          exact litValue_enqueue _ _
        · rw [hlv, Function.update_same]
          exact hdl
      · rcases ih l hold with h1 | ⟨hv, h0, hsrc⟩
        · left
          rw [hpre]
          exact h1
        · right
          have hne := litVar_ne_of_values s.assigns l p hv hund
          refine ⟨?_, ?_, hss hsrc⟩
          · rw [ha, litValue_update_ne _ _ _ _ hne]
            exact hv
          · rw [hlv, Function.update_noteq hne]
            exact h0
  | enqueueFree s p hr hund ih =>
    intro l hl
    rcases ih l hl with h1 | ⟨hv, h0, hsrc⟩
    · left
      exact h1
    · right
      have hne := litVar_ne_of_values s.assigns l p hv hund
      refine ⟨?_, ?_, hsrc⟩
      · show litValue (Function.update s.assigns (litVar p) _) l = _
        rw [litValue_update_ne _ _ _ _ hne]
        exact hv
      · show Function.update s.levelOf (litVar p) s.dl (litVar l) = 0
        rw [Function.update_noteq hne]
        exact h0
  | newLevel s hr ih =>
    intro l hl
    exact ih l hl
  | unitsInject s q hr hdl ih =>
    by_cases hu : litValue s.assigns q = LBool.lundef
    · have hstate : fuUnitsInject s q = { s with
        assigns := Function.update s.assigns (litVar q)
          (if litSign q then LBool.lfalse else LBool.ltrue),
        levelOf := Function.update s.levelOf (litVar q) s.dl,
        trail := s.trail ++ [q],
        forbidUnits := insert q s.forbidUnits,
        symSources := insert q s.symSources } := by
        unfold fuUnitsInject fuEnqueueFree
        rw [if_pos hu]
      rw [hstate]
      unfold C2Inv
      dsimp only
      intro l hl
      rcases Finset.mem_insert.mp hl with rfl | hold
      · right
        refine ⟨?_, ?_, Finset.mem_insert_self _ _⟩
        · exact litValue_enqueue _ _
        · rw [Function.update_same]
          exact hdl
      · rcases ih l hold with h1 | ⟨hv, h0, hsrc⟩
        · left
          exact h1
        · right
          have hne := litVar_ne_of_values s.assigns l q hv hu
          refine ⟨?_, ?_, Finset.mem_insert_of_mem hsrc⟩
          · rw [litValue_update_ne _ _ _ _ hne]
            exact hv
          · rw [Function.update_noteq hne]
            exact h0
    · have hstate : fuUnitsInject s q = { s with
        forbidUnits := insert q s.forbidUnits,
        preAssignedInjected := insert q s.preAssignedInjected } := by
        unfold fuUnitsInject
        rw [if_neg hu]
      rw [hstate]
      intro l hl
      rcases Finset.mem_insert.mp hl with rfl | hold
      · left
        exact Finset.mem_insert_self _ _
      · rcases ih l hold with h1 | ⟨hv, h0, hsrc⟩
        · left
          exact Finset.mem_insert_of_mem h1
        · right
          exact ⟨hv, h0, hsrc⟩
  | learntUnit s q isSym hr hdl hund ih =>
    by_cases hs : isSym = true
    · have hstate : fuLearntUnit s q isSym = { s with
        assigns := Function.update s.assigns (litVar q)
          (if litSign q then LBool.lfalse else LBool.ltrue),
        levelOf := Function.update s.levelOf (litVar q) s.dl,
        trail := s.trail ++ [q],
        forbidUnits := insert q s.forbidUnits,
        symSources := insert q s.symSources } := by
        unfold fuLearntUnit fuEnqueueFree
        rw [if_pos hs]
      rw [hstate]
      unfold C2Inv
      dsimp only
      intro l hl
      rcases Finset.mem_insert.mp hl with rfl | hold
      · right
        refine ⟨?_, ?_, Finset.mem_insert_self _ _⟩
        · exact litValue_enqueue _ _
        · rw [Function.update_same]
          exact hdl
      · rcases ih l hold with h1 | ⟨hv, h0, hsrc⟩
        · left
          exact h1
        · right
          have hne := litVar_ne_of_values s.assigns l q hv hund
          refine ⟨?_, ?_, Finset.mem_insert_of_mem hsrc⟩
          · rw [litValue_update_ne _ _ _ _ hne]
            exact hv
          · rw [Function.update_noteq hne]
            exact h0
    · have hstate : fuLearntUnit s q isSym = fuEnqueueFree s q := by
        unfold fuLearntUnit
        rw [if_neg hs]
      rw [hstate]
      intro l hl
      rcases ih l hl with h1 | ⟨hv, h0, hsrc⟩
      · left
        exact h1
      · right
        have hne := litVar_ne_of_values s.assigns l q hv hund
        refine ⟨?_, ?_, hsrc⟩
        · show litValue (Function.update s.assigns (litVar q) _) l = _
          rw [litValue_update_ne _ _ _ _ hne]
          exact hv
        · show Function.update s.levelOf (litVar q) s.dl (litVar l) = 0
          rw [Function.update_noteq hne]
          exact h0
  | cancel s lvl hr ih =>
    intro l hl
    rcases ih l hl with h1 | ⟨hv, h0, hsrc⟩
    · left
      exact h1
    · right
      refine ⟨?_, h0, hsrc⟩
      show litValue (fun v => if lvl < s.levelOf v then LBool.lundef else s.assigns v) l = _
      rw [litValue_cancel _ _ _ _ h0]
      exact hv

/-- The state after adding the unit input clause `[~x0]` and then letting
the symmetry oracle inject the unit `x0` at the start of `solve_`. -/
def fuCounterState : FUState := fuUnitsInject (fuEnqueueFree fuInit 1) 0

/-- Counterexample to C2 as stated: the state `fuCounterState` is reachable
(add the input unit clause `~x0`; then the UNITS phase of `solve_` injects
the symmetry unit `x0`, inserting it into `forbid_units` before testing its
value), yet literal `x0` sits in `forbid_units` with top-level value False,
not True. -/
theorem forbidUnits_counterexample :
    FUReach fuCounterState ∧
      0 ∈ fuCounterState.forbidUnits ∧
      litValue fuCounterState.assigns 0 ≠ LBool.ltrue :=
  ⟨FUReach.unitsInject _ 0 (FUReach.enqueueFree _ 1 FUReach.init (by decide))
      (by decide),
    by decide, by decide⟩

/-- Witness for C2 (amended): the reachability hypothesis holds at
`fuCounterState` and the amended invariant follows there. -/
theorem forbidUnits_inv_witness :
    FUReach fuCounterState ∧ C2Inv fuCounterState :=
  ⟨FUReach.unitsInject _ 0 (FUReach.enqueueFree _ 1 FUReach.init (by decide))
      (by decide),
    forbidUnits_inv fuCounterState
      (FUReach.unitsInject _ 0 (FUReach.enqueueFree _ 1 FUReach.init (by decide))
        (by decide))⟩

/-!
## First-UIP conflict analysis (claim C4)

The main resolution loop of `Solver::analyze` (source lines 594-633) and the
backtrack-level computation (lines 665-680).

The loop walks the implication graph backwards: literals of the clause in
hand are marked `seen` when their level is positive — current-level ones
bump the path counter `pathC`, lower-level ones join the output clause —
then the trail is popped down to the most recent seen literal `p`, whose
reason becomes the next clause (scanned from index 1, its index 0 being `p`
itself), until `pathC` reaches zero after a pop; `out_learnt[0] = ~p`.

The reference computation `refUIP` is written from the spec's words ("pop
the trail from the top, resolving against the reason of the most recent
seen literal, until the path counter reaches one — the First-UIP"): it keeps
the set of current-level literals of the running resolvent, repeatedly picks
the one whose complement sits deepest on the trail, and resolves it away
against its reason until a single current-level literal remains — the
negation of the First-UIP.

The conflict-clause-minimization stage (lines 637-663, all `ccmin_mode`
branches scan from index 1 and keep index 0) is passed to `analyze` as a
function `ccmin` on the tail, constrained in the theorem to return a subset
of its input's literals.  Activity bumping and the symmetry bookkeeping of
the loop (claims C3/C2) do not affect the learnt clause or the backtrack
level and are omitted here.

Both loops carry explicit fuel; `trail.length + 1` is enough, as each
iteration strictly descends the trail.  The source relies on the same
well-formedness invariants (`AnalyzeWF` below) for its `assert(confl !=
CRef_Undef)` and for `trail[index--]` staying in bounds.
-/

/-- The literal-marking scan of one clause (lines 607-623, without the
symmetry bookkeeping): unseen literals of positive level are marked;
current-level ones bump `pathC`, others join `out_learnt`. -/
def markLits (level : Nat → Nat) (dl : Nat) :
    List Nat → Finset Nat → Nat → List Nat → Finset Nat × Nat × List Nat
  | [], seen, pathC, out => (seen, pathC, out)
  | q :: qs, seen, pathC, out =>
    if litVar q ∉ seen ∧ 0 < level (litVar q) then
      if dl ≤ level (litVar q) then
        markLits level dl qs (insert (litVar q) seen) (pathC + 1) out
      else
        markLits level dl qs (insert (litVar q) seen) pathC (out ++ [q])
    else markLits level dl qs seen pathC out

/-- `while (!seen[var(trail[index--])]);` — the highest trail position
`≤ index` holding a seen variable. -/
def findSeen (trail : List Nat) (seen : Finset Nat) : Nat → Option Nat
  | 0 => if litVar (trail.getD 0 0) ∈ seen then some 0 else none
  | i + 1 =>
    if litVar (trail.getD (i + 1) 0) ∈ seen then some (i + 1)
    else findSeen trail seen i

/-- The main loop of `analyze` (lines 594-633).  `scan` is the clause in
hand (the whole conflict clause on entry, `reason(p)` without its head
afterwards).  Returns the final `p` (the First-UIP) and the collected
lower-level literals (`out_learnt` without its slot 0). -/
def analyzeLoop (ca : Nat → List Nat) (reason : Nat → Option Nat)
    (level : Nat → Nat) (dl : Nat) (trail : List Nat) :
    Nat → List Nat → Finset Nat → Nat → List Nat → Nat → Option (Nat × List Nat)
  | 0, _, _, _, _, _ => none
  | fuel + 1, scan, seen, pathC, out, index =>
    let m := markLits level dl scan seen pathC out
    match findSeen trail m.1 index with
    | none => none
    | some i =>
      let p := trail.getD i 0
      if m.2.1 - 1 = 0 then some (p, m.2.2)
      else
        match reason (litVar p) with
        | none => none
        | some cr =>
          if i = 0 then none
          else
            analyzeLoop ca reason level dl trail fuel ((ca cr).drop 1)
              (m.1.erase (litVar p)) (m.2.1 - 1) m.2.2 (i - 1)

/-- The spec's "most recent seen literal": the deepest trail literal whose
complement belongs to the current resolvent. -/
def refPick (trail : List Nat) (curC : Finset Nat) : Option Nat :=
  trail.reverse.find? (fun x => negLit x ∈ curC)

/-- The First-UIP, written from the spec's words: starting from the
current-level literals of the conflict clause, repeatedly resolve away the
one whose complement is the most recent trail literal, replacing it by the
current-level literals of its reason (whose index 0 is the trail literal
itself), until exactly one remains; the trail literal producing it is the
First-UIP. -/
def refUIP (ca : Nat → List Nat) (reason : Nat → Option Nat)
    (level : Nat → Nat) (dl : Nat) (trail : List Nat) :
    Nat → Finset Nat → Option Nat
  | 0, _ => none
  | fuel + 1, curC =>
    match refPick trail curC with
    | none => none
    | some x =>
      if curC.card = 1 then some x
      else
        match reason (litVar x) with
        | none => none
        | some cr =>
          refUIP ca reason level dl trail fuel
            ((curC.erase (negLit x)) ∪
              (((ca cr).drop 1).filter
                (fun q => dl ≤ level (litVar q))).toFinset)

/-- The `max_i` scan of the backtrack-level block (lines 670-674): running
over the clause from index 2, remember the index of the greatest-level
literal, seeded with index 1. -/
def btScanLoop (level : Nat → Nat) (cl : List Nat) :
    List Nat → Nat → Nat → Nat
  | [], _, mi => mi
  | x :: xs, i, mi =>
    btScanLoop level cl xs (i + 1)
      (if level (litVar (cl.getD mi 0)) < level (litVar x) then i else mi)

/-- The backtrack-level computation of `analyze` (lines 665-680): level 0
for a unit clause; otherwise swap a literal of the second-highest level into
index 1 and return its level. -/
def computeBtLevel (level : Nat → Nat) (cl : List Nat) : List Nat × Nat :=
  if cl.length = 1 then (cl, 0)
  else
    let mi := btScanLoop level cl (cl.drop 2) 2 1
    let p := cl.getD mi 0
    ((cl.set mi (cl.getD 1 0)).set 1 p, level (litVar p))

/-- `Solver::analyze` as far as claim C4 is concerned: run the main loop,
prepend the asserting literal `~p`, minimize the tail (`ccmin`), compute the
backtrack level. -/
def analyze (ca : Nat → List Nat) (reason : Nat → Option Nat)
    (level : Nat → Nat) (dl : Nat) (trail : List Nat)
    (conflictC : List Nat) (ccmin : List Nat → List Nat) :
    Option (List Nat × Nat) :=
  match analyzeLoop ca reason level dl trail (trail.length + 1) conflictC ∅ 0 []
      (trail.length - 1) with
  | none => none
  | some (p, out) => some (computeBtLevel level (negLit p :: ccmin out))

/-- The well-formedness invariants of the solver state at a conflict that
`analyze` relies on: trail variables are distinct, levels increase along the
trail and never exceed the current level, the reason clause of a propagated
trail literal starts with that literal and has its other literals falsified
earlier on the trail, and every current-level trail literal except the
first (the decision) has a reason. -/
structure AnalyzeWF (ca : Nat → List Nat) (reason : Nat → Option Nat)
    (level : Nat → Nat) (dl : Nat) (trail : List Nat) : Prop where
  varsNodup : ∀ i j, i < trail.length → j < trail.length →
    litVar (trail.getD i 0) = litVar (trail.getD j 0) → i = j
  levelMono : ∀ i j, i < j → j < trail.length →
    level (litVar (trail.getD i 0)) ≤ level (litVar (trail.getD j 0))
  levelLe : ∀ i, i < trail.length → level (litVar (trail.getD i 0)) ≤ dl
  reasonHead : ∀ i, i < trail.length →
    ∀ cr, reason (litVar (trail.getD i 0)) = some cr →
      (ca cr).getD 0 0 = trail.getD i 0
  reasonTail : ∀ i, i < trail.length →
    ∀ cr, reason (litVar (trail.getD i 0)) = some cr →
      ∀ q ∈ (ca cr).drop 1, ∃ j, j < i ∧ trail.getD j 0 = negLit q
  decisionReason : ∀ i, i < trail.length → dl ≤ level (litVar (trail.getD i 0)) →
    (∃ j, j < i ∧ dl ≤ level (litVar (trail.getD j 0))) →
    reason (litVar (trail.getD i 0)) ≠ none

/-- The correspondence invariant of the resolution loop: `seen` holds
exactly the trail variables of the running resolvent (positions `≤ index`),
`curC` its current-level literals, `pathC` their number, `out` its
lower-level literals. -/
structure AInv (level : Nat → Nat) (dl : Nat) (trail : List Nat)
    (seen : Finset Nat) (pathC : Nat) (out : List Nat) (index : Nat)
    (curC : Finset Nat) : Prop where
  seenOnTrail : ∀ v ∈ seen, ∃ i, i < trail.length ∧ i ≤ index ∧
    litVar (trail.getD i 0) = v ∧ 0 < level v
  curCMem : ∀ q ∈ curC, dl ≤ level (litVar q) ∧ litVar q ∈ seen ∧
    ∃ i, i < trail.length ∧ i ≤ index ∧ trail.getD i 0 = negLit q
  seenCur : ∀ v ∈ seen, dl ≤ level v → ∃ q ∈ curC, litVar q = v
  pathCard : pathC = curC.card
  outBounds : ∀ q ∈ out, 0 < level (litVar q) ∧ level (litVar q) < dl
  indexLt : index < trail.length

theorem negLit_negLit (l : Nat) : negLit (negLit l) = l := by
  unfold negLit
  rcases Nat.even_or_odd l with ⟨k, hk⟩ | ⟨k, hk⟩ <;> subst hk <;>
    split <;> rename_i h <;> split <;> rename_i h2 <;> omega

theorem getD_set_self (l : List Nat) (n x : Nat) (h : n < l.length) :
    (l.set n x).getD n 0 = x := by
  rw [List.getD_eq_getElem?_getD, List.getElem?_set_self h]
  rfl

theorem getD_set_ne (l : List Nat) (n m x : Nat) (h : n ≠ m) :
    (l.set n x).getD m 0 = l.getD m 0 := by
  rw [List.getD_eq_getElem?_getD, List.getElem?_set_ne h,
    ← List.getD_eq_getElem?_getD]

theorem btScanLoop_spec (level : Nat → Nat) (cl : List Nat) :
    ∀ (xs : List Nat) (i mi : Nat),
      (∀ k, k < xs.length → xs.getD k 0 = cl.getD (i + k) 0) →
      (btScanLoop level cl xs i mi = mi ∨
        (i ≤ btScanLoop level cl xs i mi ∧
          btScanLoop level cl xs i mi < i + xs.length)) ∧
      level (litVar (cl.getD mi 0)) ≤
        level (litVar (cl.getD (btScanLoop level cl xs i mi) 0)) ∧
      (∀ k, k < xs.length → level (litVar (cl.getD (i + k) 0)) ≤
        level (litVar (cl.getD (btScanLoop level cl xs i mi) 0))) := by
  intro xs
  induction xs with
  | nil =>
    intro i mi _
    exact ⟨Or.inl rfl, Nat.le_refl _, fun k hk => absurd hk (by simp)⟩
  | cons x xs' ih =>
    intro i mi hxs
    have hx0 : x = cl.getD i 0 := by
      have := hxs 0 (by simp)
      simpa using this
    have hxs' : ∀ k, k < xs'.length → xs'.getD k 0 = cl.getD (i + 1 + k) 0 := by
      intro k hk
      have := hxs (k + 1) (by simp; omega)
      simpa [Nat.add_assoc, Nat.add_comm 1 k] using this
    rw [btScanLoop]
    by_cases hcond : level (litVar (cl.getD mi 0)) < level (litVar x)
    · rw [if_pos hcond]
      obtain ⟨hrange, hmi, hall⟩ := ih (i + 1) i hxs'
      refine ⟨?_, ?_, ?_⟩
      · rcases hrange with h | ⟨h1, h2⟩
        · right
          rw [h]
          simp only [List.length_cons]
          omega
        · right
          simp only [List.length_cons]
          omega
      · calc level (litVar (cl.getD mi 0)) ≤ level (litVar (cl.getD i 0)) := by
              rw [← hx0]; exact Nat.le_of_lt hcond
          _ ≤ _ := hmi
      · intro k hk
        cases k with
        | zero =>
          rw [Nat.add_zero]
          exact hmi
        | succ k' =>
          have hk' : k' < xs'.length := by simpa using hk
          have := hall k' hk'
          have he : i + (k' + 1) = i + 1 + k' := by omega
          rw [he]
          exact this
    · rw [if_neg hcond]
      obtain ⟨hrange, hmi, hall⟩ := ih (i + 1) mi hxs'
      refine ⟨?_, hmi, ?_⟩
      · rcases hrange with h | ⟨h1, h2⟩
        · exact Or.inl h
        · right
          simp only [List.length_cons]
          omega
      · intro k hk
        cases k with
        | zero =>
          rw [Nat.add_zero, ← hx0]
          exact Nat.le_trans (Nat.le_of_not_lt hcond) hmi
        | succ k' =>
          have hk' : k' < xs'.length := by simpa using hk
          have := hall k' hk'
          have he : i + (k' + 1) = i + 1 + k' := by omega
          rw [he]
          exact this

/-- What the backtrack-level block guarantees for a non-unit clause: index 0
untouched, the returned level is the level of the literal swapped into
index 1, and it is the maximum level over all of indices `1..`, in both the
original and the returned clause. -/
theorem computeBtLevel_spec (level : Nat → Nat) (a : Nat) (tail : List Nat)
    (hne : tail ≠ []) :
    (computeBtLevel level (a :: tail)).1.getD 0 0 = a ∧
    (computeBtLevel level (a :: tail)).1.length = tail.length + 1 ∧
    (computeBtLevel level (a :: tail)).2 =
      level (litVar ((computeBtLevel level (a :: tail)).1.getD 1 0)) ∧
    (∀ k, 1 ≤ k → k < tail.length + 1 →
      level (litVar ((a :: tail).getD k 0)) ≤ (computeBtLevel level (a :: tail)).2) ∧
    (∀ k, 1 ≤ k → k < tail.length + 1 →
      level (litVar ((computeBtLevel level (a :: tail)).1.getD k 0)) ≤
        (computeBtLevel level (a :: tail)).2) ∧
    (∃ k, 1 ≤ k ∧ k < tail.length + 1 ∧
      (computeBtLevel level (a :: tail)).2 = level (litVar ((a :: tail).getD k 0))) := by
  have hlen : (a :: tail).length = tail.length + 1 := rfl
  have hlen2 : 2 ≤ (a :: tail).length := by
    rw [hlen]
    cases tail with
    | nil => exact absurd rfl hne
    | cons b t => simp
  have hnot1 : ¬((a :: tail).length = 1) := by omega
  obtain ⟨hrange, hmi1, hall⟩ := btScanLoop_spec level (a :: tail)
    ((a :: tail).drop 2) 2 1 (fun k _ => getD_drop_add _ _ _)
  set mi := btScanLoop level (a :: tail) ((a :: tail).drop 2) 2 1 with hmidef
  have hmige : 1 ≤ mi := by
    rcases hrange with h | ⟨h1, _⟩
    · omega
    · omega
  have hmilt : mi < (a :: tail).length := by
    rcases hrange with h | ⟨h1, h2⟩
    · omega
    · have : ((a :: tail).drop 2).length = (a :: tail).length - 2 := by simp
      omega
  have hmax : ∀ k, 1 ≤ k → k < (a :: tail).length →
      level (litVar ((a :: tail).getD k 0)) ≤ level (litVar ((a :: tail).getD mi 0)) := by
    intro k h1k hk
    rcases Nat.lt_or_ge k 2 with h2 | h2
    · have : k = 1 := by omega
      rw [this]
      exact hmi1
    · have hk2 : k - 2 < ((a :: tail).drop 2).length := by
        simp only [List.length_drop]
        omega
      have := hall (k - 2) hk2
      have he : 2 + (k - 2) = k := by omega
      rw [he] at this
      exact this
  have htpos : 0 < tail.length := by
    cases tail with
    | nil => exact absurd rfl hne
    | cons b t => simp
  have hr : computeBtLevel level (a :: tail) =
      (((a :: tail).set mi ((a :: tail).getD 1 0)).set 1 ((a :: tail).getD mi 0),
        level (litVar ((a :: tail).getD mi 0))) := by
    unfold computeBtLevel
    rw [if_neg hnot1]
  rw [hr]
  refine ⟨?_, ?_, ?_, ?_, ?_, mi, hmige, hmilt, rfl⟩
  · rw [getD_set_ne _ _ _ _ (by omega), getD_set_ne _ _ _ _ (by omega)]
    rfl
  · simp
  · rw [getD_set_self _ _ _ (by simp; omega)]
  · exact hmax
  · intro k h1k hk
    by_cases hk1 : k = 1
    · subst hk1
      rw [getD_set_self _ _ _ (by simp; omega)]
    · rw [getD_set_ne _ _ _ _ (Ne.symm hk1)]
      by_cases hkmi : k = mi
      · subst hkmi
        rw [getD_set_self _ _ _ hmilt]
        exact hmax 1 (Nat.le_refl _) (by omega)
      · rw [getD_set_ne _ _ _ _ (fun h => hkmi h.symm)]
        exact hmax k h1k hk

theorem find?_first (P : Nat → Bool) :
    ∀ (R : List Nat) (k : Nat), k < R.length → P (R.getD k 0) = true →
      (∀ j, j < k → P (R.getD j 0) = false) →
      R.find? P = some (R.getD k 0) := by
  intro R
  induction R with
  | nil =>
    intro k hk
    exact absurd hk (by simp)
  | cons x R' ih =>
    intro k hk hP hmin
    cases k with
    | zero =>
      rw [List.getD_cons_zero] at hP
      simp [List.find?_cons, hP]
    | succ k' =>
      have h0 : P x = false := by
        have := hmin 0 (Nat.succ_pos _)
        simpa using this
      rw [List.getD_cons_succ] at hP
      rw [List.find?_cons, h0, List.getD_cons_succ]
      exact ih k' (by simpa using hk) hP
        (fun j hj => by
          have := hmin (j + 1) (by omega)
          simpa using this)

theorem getD_reverse (L : List Nat) (k : Nat) (hk : k < L.length) :
    L.reverse.getD k 0 = L.getD (L.length - 1 - k) 0 := by
  have hk' : k < L.reverse.length := by simpa using hk
  have hk2 : L.length - 1 - k < L.length := by omega
  rw [List.getD_eq_getElem L.reverse 0 hk', List.getD_eq_getElem L 0 hk2]
  exact List.getElem_reverse _

theorem refPick_eq (trail : List Nat) (C : Finset Nat) (i : Nat)
    (hi : i < trail.length) (hC : negLit (trail.getD i 0) ∈ C)
    (hmax : ∀ j, i < j → j < trail.length → negLit (trail.getD j 0) ∉ C) :
    refPick trail C = some (trail.getD i 0) := by
  unfold refPick
  have hk : trail.length - 1 - i < trail.reverse.length := by
    simp only [List.length_reverse]
    omega
  have hg : trail.reverse.getD (trail.length - 1 - i) 0 = trail.getD i 0 := by
    rw [getD_reverse _ _ (by simpa using hk)]
    congr 1
    omega
  have := find?_first (fun x => decide (negLit x ∈ C)) trail.reverse
    (trail.length - 1 - i) hk
    (by rw [hg]; simpa using hC)
    (by
      intro j hj
      have hjlen : j < trail.length := by
        simp only [List.length_reverse] at hk
        omega
      rw [getD_reverse _ _ hjlen]
      have hgt : i < trail.length - 1 - j := by omega
      have hlt : trail.length - 1 - j < trail.length := by omega
      simpa using hmax _ hgt hlt)
  rw [this, hg]

theorem findSeen_some_spec (trail : List Nat) (seen : Finset Nat) :
    ∀ index i, findSeen trail seen index = some i →
      i ≤ index ∧ litVar (trail.getD i 0) ∈ seen ∧
      ∀ j, i < j → j ≤ index → litVar (trail.getD j 0) ∉ seen := by
  intro index
  induction index with
  | zero =>
    intro i h
    rw [findSeen] at h
    split at h
    · obtain rfl : (0 : Nat) = i := Option.some.inj h
      exact ⟨Nat.le_refl _, by assumption, fun j hj hj2 => absurd (Nat.lt_of_lt_of_le hj hj2) (by omega)⟩
    · exact absurd h (by simp)
  | succ n ih =>
    intro i h
    rw [findSeen] at h
    split at h
    · obtain rfl : n + 1 = i := Option.some.inj h
      exact ⟨Nat.le_refl _, by assumption,
        fun j hj hj2 => absurd (Nat.lt_of_lt_of_le hj hj2) (by omega)⟩
    · obtain ⟨h1, h2, h3⟩ := ih i h
      refine ⟨Nat.le_succ_of_le h1, h2, ?_⟩
      intro j hj hj2
      rcases Nat.lt_or_ge j (n + 1) with hlt | hge
      · exact h3 j hj (by omega)
      · have : j = n + 1 := by omega
        rw [this]
        assumption

theorem findSeen_exists (trail : List Nat) (seen : Finset Nat) :
    ∀ index, (∃ i, i ≤ index ∧ litVar (trail.getD i 0) ∈ seen) →
      ∃ i, findSeen trail seen index = some i := by
  intro index
  induction index with
  | zero =>
    intro ⟨i, hi, hmem⟩
    obtain rfl : i = 0 := by omega
    exact ⟨0, by rw [findSeen, if_pos hmem]⟩
  | succ n ih =>
    intro ⟨i, hi, hmem⟩
    by_cases htop : litVar (trail.getD (n + 1) 0) ∈ seen
    · exact ⟨n + 1, by rw [findSeen, if_pos htop]⟩
    · have hin : i ≤ n := by
        rcases Nat.lt_or_ge i (n + 1) with h | h
        · omega
        · exact absurd hmem (by
            have : i = n + 1 := by omega
            rw [this]
            exact htop)
      obtain ⟨j, hj⟩ := ih ⟨i, hin, hmem⟩
      exact ⟨j, by rw [findSeen, if_neg htop]; exact hj⟩

section AnalyzeProof

variable (ca : Nat → List Nat) (reason : Nat → Option Nat) (level : Nat → Nat)
  (dl : Nat) (trail : List Nat)

theorem trailLit_unique (W : AnalyzeWF ca reason level dl trail) (q q' : Nat)
    (hq : ∃ i, i < trail.length ∧ trail.getD i 0 = negLit q)
    (hq' : ∃ i, i < trail.length ∧ trail.getD i 0 = negLit q')
    (hv : litVar q = litVar q') : q = q' := by
  obtain ⟨i, hi, hti⟩ := hq
  obtain ⟨i', hi', hti'⟩ := hq'
  have hvv : litVar (trail.getD i 0) = litVar (trail.getD i' 0) := by
    rw [hti, hti', litVar_negLit, litVar_negLit, hv]
  have hii : i = i' := W.varsNodup i i' hi hi' hvv
  have : negLit q = negLit q' := by
    rw [← hti, hii, hti']
  have := congrArg negLit this
  rwa [negLit_negLit, negLit_negLit] at this

theorem markLits_spec (W : AnalyzeWF ca reason level dl trail) (hdl : 0 < dl) :
    ∀ (S : List Nat) (seen : Finset Nat) (pathC : Nat) (out : List Nat)
      (index : Nat) (curC : Finset Nat),
      AInv level dl trail seen pathC out index curC →
      (∀ q ∈ S, ∃ i, i < trail.length ∧ i ≤ index ∧ trail.getD i 0 = negLit q) →
      AInv level dl trail (markLits level dl S seen pathC out).1
        (markLits level dl S seen pathC out).2.1
        (markLits level dl S seen pathC out).2.2 index
        (curC ∪ (S.filter (fun q => dl ≤ level (litVar q))).toFinset) := by
  intro S
  induction S with
  | nil =>
    intro seen pathC out index curC hInv _
    have he : curC ∪ (([] : List Nat).filter
        (fun q => dl ≤ level (litVar q))).toFinset = curC := by
      simp
    rw [markLits, he]
    exact hInv
  | cons q S' ih =>
    intro seen pathC out index curC hInv hS
    have hq := hS q (List.mem_cons_self _ _)
    obtain ⟨iq, hiq, hiqx, htq⟩ := hq
    have hS' : ∀ r ∈ S', ∃ i, i < trail.length ∧ i ≤ index ∧
        trail.getD i 0 = negLit r :=
      fun r hr => hS r (List.mem_cons_of_mem _ hr)
    rw [markLits]
    by_cases hcond : litVar q ∉ seen ∧ 0 < level (litVar q)
    · by_cases hcur : dl ≤ level (litVar q)
      · rw [if_pos hcond, if_pos hcur]
        have hqnot : q ∉ curC := by
          intro hmem
          exact hcond.1 (hInv.curCMem q hmem).2.1
        have hInv' : AInv level dl trail (insert (litVar q) seen) (pathC + 1)
            out index (insert q curC) := by
          refine ⟨?_, ?_, ?_, ?_, hInv.outBounds, hInv.indexLt⟩
          · intro v hv
            rcases Finset.mem_insert.mp hv with rfl | hv2
            · exact ⟨iq, hiq, hiqx, by rw [htq, litVar_negLit], hcond.2⟩
            · exact hInv.seenOnTrail v hv2
          · intro r hr
            rcases Finset.mem_insert.mp hr with rfl | hr2
            · exact ⟨hcur, Finset.mem_insert_self _ _, iq, hiq, hiqx, htq⟩
            · obtain ⟨h1, h2, h3⟩ := hInv.curCMem r hr2
              exact ⟨h1, Finset.mem_insert_of_mem h2, h3⟩
          · intro v hv hvl
            rcases Finset.mem_insert.mp hv with rfl | hv2
            · exact ⟨q, Finset.mem_insert_self _ _, rfl⟩
            · obtain ⟨r, hr, hrv⟩ := hInv.seenCur v hv2 hvl
              exact ⟨r, Finset.mem_insert_of_mem hr, hrv⟩
          · rw [hInv.pathCard, Finset.card_insert_of_not_mem hqnot]
        have := ih (insert (litVar q) seen) (pathC + 1) out index
          (insert q curC) hInv' hS'
        have hset : insert q curC ∪ (S'.filter
            (fun r => dl ≤ level (litVar r))).toFinset =
            curC ∪ ((q :: S').filter (fun r => dl ≤ level (litVar r))).toFinset := by
          rw [List.filter_cons, if_pos (by simpa using hcur)]
          ext x
          simp only [Finset.mem_union, Finset.mem_insert, List.mem_toFinset,
            List.mem_filter, List.mem_cons]
          constructor
          · rintro ((rfl | h) | h)
            · exact Or.inr (Or.inl rfl)
            · exact Or.inl h
            · exact Or.inr (Or.inr h)
          · rintro (h | rfl | h)
            · exact Or.inl (Or.inr h)
            · exact Or.inl (Or.inl rfl)
            · exact Or.inr h
        rw [← hset]
        exact this
      · rw [if_pos hcond, if_neg hcur]
        have hInv' : AInv level dl trail (insert (litVar q) seen) pathC
            (out ++ [q]) index curC := by
          refine ⟨?_, ?_, ?_, hInv.pathCard, ?_, hInv.indexLt⟩
          · intro v hv
            rcases Finset.mem_insert.mp hv with rfl | hv2
            · exact ⟨iq, hiq, hiqx, by rw [htq, litVar_negLit], hcond.2⟩
            · exact hInv.seenOnTrail v hv2
          · intro r hr
            obtain ⟨h1, h2, h3⟩ := hInv.curCMem r hr
            exact ⟨h1, Finset.mem_insert_of_mem h2, h3⟩
          · intro v hv hvl
            rcases Finset.mem_insert.mp hv with rfl | hv2
            · exact absurd hvl hcur
            · exact hInv.seenCur v hv2 hvl
          · intro r hr
            rcases List.mem_append.mp hr with h | h
            · exact hInv.outBounds r h
            · obtain rfl : r = q := by simpa using h
              exact ⟨hcond.2, Nat.lt_of_not_le hcur⟩
        have := ih (insert (litVar q) seen) pathC (out ++ [q]) index curC
          hInv' hS'
        have hset : ((q :: S').filter (fun r => dl ≤ level (litVar r))).toFinset =
            (S'.filter (fun r => dl ≤ level (litVar r))).toFinset := by
          rw [List.filter_cons, if_neg (by simpa using hcur)]
        rw [hset]
        exact this
    · rw [if_neg hcond]
      by_cases hcur : dl ≤ level (litVar q)
      · have hseen : litVar q ∈ seen := by
          by_contra hns
          exact hcond ⟨hns, Nat.lt_of_lt_of_le hdl hcur⟩
        obtain ⟨q', hq', hqv⟩ := hInv.seenCur (litVar q) hseen hcur
        obtain ⟨_, _, iq', hiq', _, htq'⟩ := hInv.curCMem q' hq'
        have hqq : q = q' :=
          trailLit_unique ca reason level dl trail W q q'
            ⟨iq, hiq, htq⟩ ⟨iq', hiq', htq'⟩ hqv.symm
        have hmem : q ∈ curC := hqq ▸ hq'
        have := ih seen pathC out index curC hInv hS'
        have hset : curC ∪ ((q :: S').filter
            (fun r => dl ≤ level (litVar r))).toFinset =
            curC ∪ (S'.filter (fun r => dl ≤ level (litVar r))).toFinset := by
          rw [List.filter_cons, if_pos (by simpa using hcur)]
          ext x
          simp only [Finset.mem_union, List.toFinset_cons, Finset.mem_insert,
            List.mem_toFinset]
          constructor
          · rintro (h | rfl | h)
            · exact Or.inl h
            · exact Or.inl hmem
            · exact Or.inr h
          · rintro (h | h)
            · exact Or.inl h
            · exact Or.inr (Or.inr h)
        rw [hset]
        exact this
      · have := ih seen pathC out index curC hInv hS'
        have hset : ((q :: S').filter (fun r => dl ≤ level (litVar r))).toFinset =
            (S'.filter (fun r => dl ≤ level (litVar r))).toFinset := by
          rw [List.filter_cons, if_neg (by simpa using hcur)]
        rw [hset]
        exact this

/-- The resolution loop of `analyze` computes the spec's First-UIP: under
the solver's well-formedness invariants, the loop succeeds, its final `p`
is the literal `refUIP` computes on the corresponding resolvent, the
collected output literals all have levels strictly between 0 and the
current level, and `p` is a current-level trail literal. -/
theorem analyzeLoop_spec (W : AnalyzeWF ca reason level dl trail) (hdl : 0 < dl) :
    ∀ (fuel : Nat) (scan : List Nat) (seen : Finset Nat) (pathC : Nat)
      (out : List Nat) (index : Nat) (curC : Finset Nat),
      AInv level dl trail seen pathC out index curC →
      (∀ q ∈ scan, ∃ i, i < trail.length ∧ i ≤ index ∧ trail.getD i 0 = negLit q) →
      (curC ∪ (scan.filter (fun q => dl ≤ level (litVar q))).toFinset).Nonempty →
      index < fuel →
      ∃ p out', analyzeLoop ca reason level dl trail fuel scan seen pathC out index
          = some (p, out') ∧
        refUIP ca reason level dl trail fuel
          (curC ∪ (scan.filter (fun q => dl ≤ level (litVar q))).toFinset)
          = some p ∧
        (∀ q ∈ out', 0 < level (litVar q) ∧ level (litVar q) < dl) ∧
        dl ≤ level (litVar p) ∧ (∃ i, i < trail.length ∧ trail.getD i 0 = p) := by
  intro fuel
  induction fuel with
  | zero =>
    intro scan seen pathC out index curC _ _ _ hf
    exact absurd hf (by omega)
  | succ fuel ih =>
    intro scan seen pathC out index curC hInv hScan hNe hf
    have hInv' := markLits_spec ca reason level dl trail W hdl scan seen pathC
      out index curC hInv hScan
    set m := markLits level dl scan seen pathC out with hm
    set curC' := curC ∪ (scan.filter (fun q => dl ≤ level (litVar q))).toFinset
      with hcurdef
    have hcard : 1 ≤ curC'.card := Nat.succ_le_of_lt (Finset.card_pos.mpr hNe)
    have hpath : m.2.1 = curC'.card := hInv'.pathCard
    obtain ⟨q0, hq0⟩ := hNe
    obtain ⟨hq0lev, hq0seen, i0, hi0, hi0le, ht0⟩ := hInv'.curCMem q0 hq0
    obtain ⟨i, hfi⟩ := findSeen_exists trail m.1 index
      ⟨i0, hi0le, by rw [ht0, litVar_negLit]; exact hq0seen⟩
    obtain ⟨hile, himem, himax⟩ := findSeen_some_spec trail m.1 index i hfi
    have hilen : i < trail.length := Nat.lt_of_le_of_lt hile hInv'.indexLt
    set p := trail.getD i 0 with hpdef
    have hplev : dl ≤ level (litVar p) := by
      by_contra hlow
      have hi0i : i0 ≤ i := by
        by_contra hgt
        exact himax i0 (by omega) hi0le
          (by rw [ht0, litVar_negLit]; exact hq0seen)
      rcases Nat.eq_or_lt_of_le hi0i with heq | hlt
      · apply hlow
        rw [hpdef, ← heq, ht0, litVar_negLit]
        exact hq0lev
      · have hmono := W.levelMono i0 i hlt hilen
        rw [ht0, litVar_negLit] at hmono
        exact hlow (Nat.le_trans hq0lev hmono)
    have hpC : negLit p ∈ curC' := by
      obtain ⟨q', hq', hqv⟩ := hInv'.seenCur (litVar p) himem hplev
      have hqe : q' = negLit p := by
        apply trailLit_unique ca reason level dl trail W
        · obtain ⟨j, hjl, _, htj⟩ := (hInv'.curCMem q' hq').2.2
          exact ⟨j, hjl, htj⟩
        · exact ⟨i, hilen, by rw [negLit_negLit]⟩
        · rw [litVar_negLit]
          exact hqv
      rwa [← hqe]
    have hpick : refPick trail curC' = some p := by
      apply refPick_eq trail curC' i hilen hpC
      intro j hij hjlen hmem2
      obtain ⟨_, hseenj, jpos, hjp, hjple, htj⟩ := hInv'.curCMem _ hmem2
      rw [negLit_negLit] at htj
      have hj_eq : jpos = j := W.varsNodup jpos j hjp hjlen (by rw [htj])
      rw [litVar_negLit] at hseenj
      exact himax j hij (hj_eq ▸ hjple) hseenj
    by_cases hstop : m.2.1 - 1 = 0
    · have hcard1 : curC'.card = 1 := by omega
      refine ⟨p, m.2.2, ?_, ?_, hInv'.outBounds, hplev, ⟨i, hilen, rfl⟩⟩
      · rw [analyzeLoop]
        dsimp only
        rw [← hm, hfi]
        dsimp only
        rw [if_pos hstop]
      · rw [refUIP]
        rw [hpick]
        dsimp only
        rw [if_pos hcard1]
    · have hcard2 : 2 ≤ curC'.card := by omega
      have hsecond : ∃ j, j < i ∧ dl ≤ level (litVar (trail.getD j 0)) := by
        obtain ⟨q2, hq2, hq2ne⟩ :=
          Finset.exists_ne_of_one_lt_card
            (show 1 < curC'.card by omega) (negLit p)
        obtain ⟨hq2lev, hq2seen, j, hjlen, hjle, htj⟩ := hInv'.curCMem q2 hq2
        have hji : j ≤ i := by
          by_contra hgt
          exact himax j (by omega) hjle
            (by rw [htj, litVar_negLit]; exact hq2seen)
        have hjne : j ≠ i := by
          intro he
          apply hq2ne
          have : negLit q2 = p := by rw [← htj, he]
          rw [← this, negLit_negLit]
        exact ⟨j, by omega, by rw [htj, litVar_negLit]; exact hq2lev⟩
      have hreason : reason (litVar p) ≠ none :=
        W.decisionReason i hilen hplev hsecond
      obtain ⟨cr, hcr⟩ : ∃ cr, reason (litVar p) = some cr := by
        cases hr : reason (litVar p) with
        | none => exact absurd hr hreason
        | some c => exact ⟨c, rfl⟩
      have hine : i ≠ 0 := by
        obtain ⟨j, hj, _⟩ := hsecond
        omega
      have hScanNew : ∀ q ∈ (ca cr).drop 1, ∃ i2, i2 < trail.length ∧
          i2 ≤ i - 1 ∧ trail.getD i2 0 = negLit q := by
        intro q hq
        obtain ⟨j, hji, htj⟩ := W.reasonTail i hilen cr hcr q hq
        exact ⟨j, by omega, by omega, htj⟩
      have hInvNew : AInv level dl trail (m.1.erase (litVar p)) (m.2.1 - 1)
          m.2.2 (i - 1) (curC'.erase (negLit p)) := by
        refine ⟨?_, ?_, ?_, ?_, hInv'.outBounds, by omega⟩
        · intro v hv
          obtain ⟨hvne, hvs⟩ := Finset.mem_erase.mp hv
          obtain ⟨i2, h2len, h2le, h2var, h2lev⟩ := hInv'.seenOnTrail v hvs
          have h2i : i2 ≤ i := by
            by_contra hgt
            exact himax i2 (by omega) h2le (h2var ▸ hvs)
          have h2ne : i2 ≠ i := by
            intro he
            apply hvne
            rw [← h2var, he]
          exact ⟨i2, h2len, by omega, h2var, h2lev⟩
        · intro q hq
          obtain ⟨hqne, hqC⟩ := Finset.mem_erase.mp hq
          obtain ⟨h1, h2, i2, h2len, h2le, ht2⟩ := hInv'.curCMem q hqC
          have hvarne : litVar q ≠ litVar p := by
            intro he
            apply hqne
            apply trailLit_unique ca reason level dl trail W
            · exact ⟨i2, h2len, ht2⟩
            · exact ⟨i, hilen, by rw [negLit_negLit]⟩
            · rw [litVar_negLit]
              exact he
          have h2i : i2 ≤ i := by
            by_contra hgt
            exact himax i2 (by omega) h2le (by rw [ht2, litVar_negLit]; exact h2)
          have h2ne : i2 ≠ i := by
            intro he
            apply hvarne
            have : litVar (trail.getD i2 0) = litVar q := by
              rw [ht2, litVar_negLit]
            rw [← this, he]
          exact ⟨h1, Finset.mem_erase.mpr ⟨hvarne, h2⟩, i2, h2len, by omega, ht2⟩
        · intro v hv hlev2
          obtain ⟨hvne, hvs⟩ := Finset.mem_erase.mp hv
          obtain ⟨q, hq, hqv⟩ := hInv'.seenCur v hvs hlev2
          refine ⟨q, Finset.mem_erase.mpr ⟨?_, hq⟩, hqv⟩
          intro he
          apply hvne
          rw [← hqv, he, litVar_negLit]
        · rw [Finset.card_erase_of_mem hpC, ← hpath]
      have hfNew : i - 1 < fuel := by omega
      have hNeNew : ((curC'.erase (negLit p)) ∪
          (((ca cr).drop 1).filter
            (fun q => dl ≤ level (litVar q))).toFinset).Nonempty := by
        have hpos : 0 < (curC'.erase (negLit p)).card := by
          rw [Finset.card_erase_of_mem hpC]
          omega
        obtain ⟨x, hx⟩ := Finset.card_pos.mp hpos
        exact ⟨x, Finset.mem_union_left _ hx⟩
      obtain ⟨p', out'', hImpl, hRef, hOut, hLev, hTr⟩ :=
        ih ((ca cr).drop 1) (m.1.erase (litVar p)) (m.2.1 - 1) m.2.2 (i - 1)
          (curC'.erase (negLit p)) hInvNew hScanNew hNeNew hfNew
      refine ⟨p', out'', ?_, ?_, hOut, hLev, hTr⟩
      · rw [analyzeLoop]
        dsimp only
        rw [← hm, hfi]
        dsimp only
        rw [if_neg hstop, hcr]
        dsimp only
        rw [if_neg hine]
        exact hImpl
      · rw [refUIP]
        rw [hpick]
        dsimp only
        rw [if_neg (by omega : ¬(curC'.card = 1)), hcr]
        dsimp only
        exact hRef

end AnalyzeProof

/-- C4: for a conflict at decision level `dl > 0` whose clause is falsified
on the trail, `analyze` succeeds; the literal at index 0 of the learnt
clause is the negation of the First-UIP of the current level (the literal
`refUIP` computes from the conflict's current-level literals), which is a
current-level trail literal; the returned backtrack level is 0 when the
learnt clause is unit, and otherwise is the level of the literal placed at
index 1, the maximum — hence, index 0 being the lone literal of level
`dl`, the second-highest — level over the clause's literals, strictly
below `dl`.  `ccmin` is the minimization pass, which only removes
literals. -/
theorem analyze_spec (ca : Nat → List Nat) (reason : Nat → Option Nat)
    (level : Nat → Nat) (dl : Nat) (trail : List Nat)
    (conflictC : List Nat) (ccmin : List Nat → List Nat)
    (W : AnalyzeWF ca reason level dl trail) (hdl : 0 < dl)
    (hconf : ∀ q ∈ conflictC, ∃ i, i < trail.length ∧ trail.getD i 0 = negLit q)
    (hcur : ∃ q ∈ conflictC, dl ≤ level (litVar q))
    (hccmin : ∀ xs, ∀ q ∈ ccmin xs, q ∈ xs) :
    ∃ p cl bt,
      analyze ca reason level dl trail conflictC ccmin = some (cl, bt) ∧
      refUIP ca reason level dl trail (trail.length + 1)
        ((conflictC.filter (fun q => dl ≤ level (litVar q))).toFinset)
        = some p ∧
      (∃ i, i < trail.length ∧ trail.getD i 0 = p) ∧
      cl.getD 0 0 = negLit p ∧
      level (litVar (cl.getD 0 0)) = dl ∧
      (cl.length = 1 → bt = 0) ∧
      (cl.length ≠ 1 →
        bt = level (litVar (cl.getD 1 0)) ∧ 0 < bt ∧ bt < dl ∧
        (∀ k, 1 ≤ k → k < cl.length →
          level (litVar (cl.getD k 0)) ≤ bt)) := by
  obtain ⟨q1, hq1, hq1lev⟩ := hcur
  obtain ⟨i1, hi1, ht1⟩ := hconf q1 hq1
  have htpos : 0 < trail.length := Nat.lt_of_le_of_lt (Nat.zero_le _) hi1
  have hInv0 : AInv level dl trail ∅ 0 [] (trail.length - 1) ∅ := by
    refine ⟨?_, ?_, ?_, by simp, ?_, by omega⟩
    · intro v hv
      exact absurd hv (Finset.not_mem_empty v)
    · intro q hq
      exact absurd hq (Finset.not_mem_empty q)
    · intro v hv
      exact absurd hv (Finset.not_mem_empty v)
    · intro q hq
      exact absurd hq (List.not_mem_nil q)
  have hScan0 : ∀ q ∈ conflictC, ∃ i, i < trail.length ∧
      i ≤ trail.length - 1 ∧ trail.getD i 0 = negLit q := by
    intro q hq
    obtain ⟨i, hi, ht⟩ := hconf q hq
    exact ⟨i, hi, by omega, ht⟩
  have hNe0 : ((∅ : Finset Nat) ∪
      (conflictC.filter (fun q => dl ≤ level (litVar q))).toFinset).Nonempty := by
    refine ⟨q1, Finset.mem_union_right _ ?_⟩
    rw [List.mem_toFinset, List.mem_filter]
    exact ⟨hq1, by simpa using hq1lev⟩
  obtain ⟨p, out, hImpl, hRef, hOut, hLev, hTr⟩ :=
    analyzeLoop_spec ca reason level dl trail W hdl (trail.length + 1)
      conflictC ∅ 0 [] (trail.length - 1) ∅ hInv0 hScan0 hNe0 (by omega)
  rw [Finset.empty_union] at hRef
  obtain ⟨ip, hip, htp⟩ := hTr
  have heqdl : level (litVar p) = dl :=
    Nat.le_antisymm (htp ▸ W.levelLe ip hip) hLev
  have hEq : analyze ca reason level dl trail conflictC ccmin =
      some (computeBtLevel level (negLit p :: ccmin out)) := by
    unfold analyze
    rw [hImpl]
  by_cases hcc : ccmin out = []
  · refine ⟨p, [negLit p], 0, ?_, hRef, ⟨ip, hip, htp⟩, rfl, ?_,
      fun _ => rfl, fun h => absurd rfl h⟩
    · rw [hEq, hcc]
      rfl
    · rw [List.getD_cons_zero, litVar_negLit]
      exact heqdl
  · obtain ⟨h0, hlen, h1, _, hmaxNew, k, hk1, hk2, hkval⟩ :=
      computeBtLevel_spec level (negLit p) (ccmin out) hcc
    refine ⟨p, (computeBtLevel level (negLit p :: ccmin out)).1,
      (computeBtLevel level (negLit p :: ccmin out)).2,
      ?_, hRef, ⟨ip, hip, htp⟩, h0, ?_, ?_, ?_⟩
    · rw [hEq]
    · rw [h0, litVar_negLit]
      exact heqdl
    · intro h1len
      rw [hlen] at h1len
      have hlz : (ccmin out).length = 0 := by omega
      exact absurd (List.length_eq_zero.mp hlz) hcc
    · intro _
      refine ⟨h1, ?_, ?_, by rw [hlen]; exact hmaxNew⟩ <;>
      · have hgd : (negLit p :: ccmin out).getD k 0 =
            (ccmin out).getD (k - 1) 0 := by
          cases k with
          | zero => omega
          | succ k0 => simp [List.getD_cons_succ]
        have hklt : k - 1 < (ccmin out).length := by omega
        have hmem : (ccmin out).getD (k - 1) 0 ∈ ccmin out := by
          rw [List.getD_eq_getElem _ _ hklt]
          exact List.getElem_mem hklt
        have hout := hOut _ (hccmin out _ hmem)
        rw [hkval, hgd]
        omega

/-- Witness data for `analyze_spec`: clause 1 is `x1 ∨ ¬x0`, clause 2 is
`x2 ∨ ¬x0` (literal `2v` is `xv`, `2v+1` is `¬xv`). -/
def c4ca : Nat → List Nat :=
  fun cr => if cr = 1 then [2, 1] else if cr = 2 then [4, 1] else []

def c4reason : Nat → Option Nat :=
  fun v => if v = 1 then some 1 else if v = 2 then some 2 else none

def c4level : Nat → Nat := fun _ => 1

theorem analyze_spec_witness :
    ∃ p cl bt,
      analyze c4ca c4reason c4level 1 [0, 2, 4] [3, 5] (fun xs => xs)
        = some (cl, bt) ∧
      refUIP c4ca c4reason c4level 1 [0, 2, 4] ([0, 2, 4].length + 1)
        (([3, 5].filter (fun q => 1 ≤ c4level (litVar q))).toFinset)
        = some p ∧
      (∃ i, i < [0, 2, 4].length ∧ [0, 2, 4].getD i 0 = p) ∧
      cl.getD 0 0 = negLit p ∧
      c4level (litVar (cl.getD 0 0)) = 1 ∧
      (cl.length = 1 → bt = 0) ∧
      (cl.length ≠ 1 →
        bt = c4level (litVar (cl.getD 1 0)) ∧ 0 < bt ∧ bt < 1 ∧
        (∀ k, 1 ≤ k → k < cl.length →
          c4level (litVar (cl.getD k 0)) ≤ bt)) := by
  apply analyze_spec
  · refine ⟨?_, ?_, ?_, ?_, ?_, ?_⟩
    · intro i j hi hj
      have hi3 : i < 3 := hi
      have hj3 : j < 3 := hj
      interval_cases i <;> interval_cases j <;> decide
    · intro i j _ _
      exact Nat.le_refl 1
    · intro i _
      exact Nat.le_refl 1
    · intro i hi cr hcr
      have hi3 : i < 3 := hi
      interval_cases i
      · exact Option.noConfusion hcr
      · have h : (1 : Nat) = cr := Option.some.inj hcr
        subst h
        decide
      · have h : (2 : Nat) = cr := Option.some.inj hcr
        subst h
        decide
    · intro i hi cr hcr q hq
      have hi3 : i < 3 := hi
      interval_cases i
      · exact Option.noConfusion hcr
      · have h : (1 : Nat) = cr := Option.some.inj hcr
        subst h
        simp [c4ca] at hq
        subst hq
        exact ⟨0, by decide, by decide⟩
      · have h : (2 : Nat) = cr := Option.some.inj hcr
        subst h
        simp [c4ca] at hq
        subst hq
        exact ⟨0, by decide, by decide⟩
    · intro i hi _ h2
      have hi3 : i < 3 := hi
      interval_cases i
      · obtain ⟨j, hj, _⟩ := h2
        omega
      · decide
      · decide
  · decide
  · intro q hq
    simp at hq
    rcases hq with rfl | rfl
    · exact ⟨1, by decide, by decide⟩
    · exact ⟨2, by decide, by decide⟩
  · exact ⟨3, by decide, by decide⟩
  · exact fun xs q h => h

end ESBP
